import Mathlib

set_option maxRecDepth 10000

/-!
Verification of `deepl_translator.py` (repository `aisquad/deepl_translator`).

Python strings are modelled as `List Char` (Python `len` counts code points,
as does `List.length` on `List Char`).  The three regular expressions of the
script (`search_pattern`, `done_pattern`, `comment_pattern`) are shallowly
embedded as deterministic scanners that implement exactly the backtracking
behaviour of the Python `re` module on these concrete patterns; the derivation
is recorded in comments next to each definition.
-/

deriving instance DecidableEq for Except

namespace DeeplTranslator

/-- Python `\s` (whitespace class), restricted to the ASCII whitespace
characters `[ \t\n\r\x0b\x0c]`.  (`re.UNICODE` additionally admits Unicode
whitespace code points; none of the inputs considered here contain any, and
the patterns' behaviour analysed below does not depend on them.) -/
def pyIsSpace (c : Char) : Bool :=
  c = ' ' || c = '\t' || c = '\n' || c = '\r' || c = '\x0b' || c = '\x0c'

/-- If `p` is a literal prefix of `s`, return the remainder of `s`,
otherwise `none`.  This models matching a literal fragment of a regex. -/
def afterLit? : List Char → List Char → Option (List Char)
  | [], s => some s
  | _ :: _, [] => none
  | p :: ps, c :: cs => if p = c then afterLit? ps cs else none

/-- Greedy span: longest prefix of characters satisfying `q`, and the rest.
Models a greedy character-class repetition (`[^<]+`, `\s+`) followed by a
literal that no character of the class can begin. -/
def spanP (q : Char → Bool) : List Char → List Char × List Char
  | [] => ([], [])
  | c :: cs =>
    if q c then
      let r := spanP q cs
      (c :: r.1, r.2)
    else ([], c :: cs)

/-- The literal `<source>` (start of both extraction patterns). -/
def srcOpen : List Char := "<source>".toList

/-- The literal `</source>`. -/
def srcClose : List Char := "</source>".toList

/-- The literal `<target state="needs-translation"/>` (untranslated marker). -/
def needsTransl : List Char := "<target state=\"needs-translation\"/>".toList

/-- The literal `<target>`. -/
def tgtOpen : List Char := "<target>".toList

/-- The literal `</target>`. -/
def tgtClose : List Char := "</target>".toList

/-- `f'{new_line:<11}'` in `DeeplTranslator.translate`: a newline left-padded
to width 11, i.e. `'\n'` followed by ten spaces. -/
def indentNl : List Char := '\n' :: List.replicate 10 ' '

/--
Attempt to match `search_pattern` at the start of `s`:
`<source>(?P<source>[^<]+)</source>\s+<target state="needs-translation"/>`
(with `re.S`, which is irrelevant: the pattern contains no `.`).

Returns the captured `source` group and the remainder of the input after the
whole match.  The greedy `[^<]+` is followed by `</source>` whose first
character `<` is excluded from the class, and the greedy `\s+` is followed by
a literal starting with the non-whitespace `<`; hence neither repetition ever
backtracks and both take their maximal run.
-/
def matchSearchAt (s : List Char) : Option (List Char × List Char) :=
  (afterLit? srcOpen s).bind fun s1 =>
    let r1 := spanP (fun c => c != '<') s1
    if r1.1.isEmpty then none
    else
      (afterLit? srcClose r1.2).bind fun s2 =>
        let r2 := spanP pyIsSpace s2
        if r2.1.isEmpty then none
        else
          (afterLit? needsTransl r2.2).map fun s3 => (r1.1, s3)

/-- Fuel-driven scanner implementing `search_pattern.finditer`: try to match
at every position from left to right; on a match, emit the `source` capture
and continue after the end of the match (matches are non-overlapping).  The
fuel (initially the length of the input) dominates the number of steps. -/
def searchScan : Nat → List Char → List (List Char)
  | 0, _ => []
  | _ + 1, [] => []
  | n + 1, c :: cs =>
    match matchSearchAt (c :: cs) with
    | some (src, rest) => src :: searchScan n rest
    | none => searchScan n cs

/-- All `source` captures of `search_pattern.finditer(s)`, in order. -/
def searchFindAll (s : List Char) : List (List Char) := searchScan s.length s

/-! ### Basic lemmas about the primitives -/

theorem afterLit?_eq_some_iff {p s r : List Char} :
    afterLit? p s = some r ↔ s = p ++ r := by
  induction p generalizing s with
  | nil => simp [afterLit?]
  | cons a as ih =>
    cases s with
    | nil => simp [afterLit?]
    | cons c cs =>
      by_cases h : a = c
      · subst h
        simp [afterLit?, ih]
      · simp [afterLit?, h, Ne.symm h]

theorem afterLit?_append_self (p r : List Char) : afterLit? p (p ++ r) = some r :=
  afterLit?_eq_some_iff.mpr rfl

theorem afterLit?_append (p q s : List Char) :
    afterLit? (p ++ q) s = (afterLit? p s).bind (afterLit? q) := by
  induction p generalizing s with
  | nil => simp [afterLit?]
  | cons a as ih =>
    cases s with
    | nil => simp [afterLit?]
    | cons c cs =>
      by_cases h : a = c <;> simp [afterLit?, h, ih]

theorem afterLit?_length {p s r : List Char} (h : afterLit? p s = some r) :
    r.length + p.length = s.length := by
  rw [afterLit?_eq_some_iff] at h
  subst h
  simp [Nat.add_comm]

theorem afterLit?_head_ne {p c : Char} {ps r : List Char} (h : p ≠ c) :
    afterLit? (p :: ps) (c :: r) = none := by
  simp [afterLit?, h]

theorem spanP_append_eq (q : Char → Bool) (s : List Char) :
    (spanP q s).1 ++ (spanP q s).2 = s := by
  induction s with
  | nil => rfl
  | cons c cs ih =>
    by_cases h : q c <;> simp [spanP, h, ih]

theorem spanP_all (q : Char → Bool) (s : List Char) :
    ∀ c ∈ (spanP q s).1, q c = true := by
  induction s with
  | nil => simp [spanP]
  | cons c cs ih =>
    by_cases h : q c <;> simp [spanP, h]
    intro x hx
    exact ih x hx

/-- Computing `spanP` on `xs ++ y :: ys` when every element of `xs` satisfies
`q` and `y` does not: the span is exactly `xs`. -/
theorem spanP_append {q : Char → Bool} {xs : List Char} {y : Char} (ys : List Char)
    (hxs : ∀ c ∈ xs, q c = true) (hy : q y = false) :
    spanP q (xs ++ y :: ys) = (xs, y :: ys) := by
  induction xs with
  | nil => simp [spanP, hy]
  | cons a as ih =>
    have ha : q a = true := hxs a (by simp)
    have ih' := ih (fun c hc => hxs c (by simp [hc]))
    simp [spanP, ha, ih']

/-! ### The `done_pattern` scanner

`done_pattern = <source>(?P<source>.+)</source>\s+?<target>(?P<target>.+)</target>`
compiled with `re.UNICODE` only, so `.` matches any character except `'\n'`.

Backtracking analysis used for the embedding:
* group 2 (`(.+)</target>` at the end of the pattern): greedy, so the group is
  the longest nonempty newline-free prefix followed by the literal
  `</target>` (implemented by `grab2`, which prefers the longer split);
* `\s+?` (lazy): the literal `<target>` that follows starts with the
  non-whitespace `<`, so the only length at which it can succeed is the full
  whitespace run — the same result as a greedy span;
* group 1 (`(.+)</source>` followed by the rest of the pattern): greedy with
  full backtracking into the continuation, so the group is the longest
  nonempty newline-free prefix followed by `</source>` after which the whole
  continuation succeeds (implemented by `grab1`, which prefers the longer
  split and checks the full continuation on each candidate).
-/

/-- Match `(.+)</target>` greedily: longest nonempty newline-free prefix
followed by the literal `</target>`; returns the capture and the rest. -/
def grab2 : List Char → Option (List Char × List Char)
  | [] => none
  | c :: cs =>
    if c = '\n' then none
    else
      match grab2 cs with
      | some (g, r) => some (c :: g, r)
      | none =>
        match afterLit? tgtClose cs with
        | some r => some ([c], r)
        | none => none

/-- Match `(.+)</source>\s+?<target>(.+)</target>` greedily with backtracking:
returns (group 1, group 2, rest after the whole match). -/
def grab1 : List Char → Option (List Char × List Char × List Char)
  | [] => none
  | c :: cs =>
    if c = '\n' then none
    else
      match grab1 cs with
      | some (g1, g2, r) => some (c :: g1, g2, r)
      | none =>
        (afterLit? srcClose cs).bind fun s2 =>
          let r2 := spanP pyIsSpace s2
          if r2.1.isEmpty then none
          else
            (afterLit? tgtOpen r2.2).bind fun s3 =>
              (grab2 s3).map fun g2r => ([c], g2r.1, g2r.2)

/-- Attempt to match `done_pattern` at the start of `s`; returns the two
captures `(source, target)` and the rest after the match. -/
def matchDoneAt (s : List Char) : Option (List Char × List Char × List Char) :=
  (afterLit? srcOpen s).bind grab1

/-- Fuel-driven scanner implementing `done_pattern.findall`. -/
def doneScan : Nat → List Char → List (List Char × List Char)
  | 0, _ => []
  | _ + 1, [] => []
  | n + 1, c :: cs =>
    match matchDoneAt (c :: cs) with
    | some (g1, g2, rest) => (g1, g2) :: doneScan n rest
    | none => doneScan n cs

/-- All `(source, target)` capture pairs of `done_pattern.findall(s)`. -/
def doneFindAll (s : List Char) : List (List Char × List Char) :=
  doneScan s.length s

/-- Python `str.replace(pat, rep)` on character lists: replace every
non-overlapping occurrence of `pat`, scanning left to right and continuing
after each replacement.  (The script never calls it with an empty pattern;
for an empty pattern this model leaves the string unchanged.)  Fuel-driven
so that the definition is structural and computable by the kernel. -/
def replScan (pat rep : List Char) : Nat → List Char → List Char
  | 0, s => s
  | _ + 1, [] => []
  | n + 1, c :: cs =>
    match afterLit? pat (c :: cs), pat with
    | some r, _ :: _ => rep ++ replScan pat rep n r
    | _, _ => c :: replScan pat rep n cs

/-- Python `s.replace(pat, rep)`. -/
def replaceAll (pat rep s : List Char) : List Char := replScan pat rep s.length s

/-! ### Characterization and length lemmas for the scanners -/

theorem srcClose_cons (X : List Char) :
    srcClose ++ X = '<' :: ("/source>".toList ++ X) := rfl

theorem needsTransl_cons (X : List Char) :
    needsTransl ++ X = '<' :: ("target state=\"needs-translation\"/>".toList ++ X) := rfl

theorem tgtOpen_cons (X : List Char) :
    tgtOpen ++ X = '<' :: ("target>".toList ++ X) := rfl

/-- A successful `search_pattern` match is exactly a decomposition
`<source> ++ src ++ </source> ++ ws ++ marker ++ rest` with `src` nonempty
and `<`-free and `ws` nonempty whitespace. -/
theorem matchSearchAt_some_iff {s src rest : List Char} :
    matchSearchAt s = some (src, rest) ↔
      ∃ ws, s = srcOpen ++ (src ++ (srcClose ++ (ws ++ (needsTransl ++ rest)))) ∧
        src ≠ [] ∧ (∀ c ∈ src, c ≠ '<') ∧ ws ≠ [] ∧ (∀ c ∈ ws, pyIsSpace c = true) := by
  constructor
  · intro h
    unfold matchSearchAt at h
    cases h1 : afterLit? srcOpen s with
    | none => rw [h1] at h; exact absurd h (by simp)
    | some s1 =>
      rw [h1] at h
      simp only [Option.some_bind] at h
      by_cases he : (spanP (fun c => c != '<') s1).1.isEmpty
      · rw [if_pos he] at h; exact absurd h (by simp)
      · rw [if_neg he] at h
        cases h2 : afterLit? srcClose (spanP (fun c => c != '<') s1).2 with
        | none => rw [h2] at h; exact absurd h (by simp)
        | some s2 =>
          rw [h2] at h
          simp only [Option.some_bind] at h
          by_cases hw : (spanP pyIsSpace s2).1.isEmpty
          · rw [if_pos hw] at h; exact absurd h (by simp)
          · rw [if_neg hw] at h
            cases h3 : afterLit? needsTransl (spanP pyIsSpace s2).2 with
            | none => rw [h3] at h; exact absurd h (by simp)
            | some s3 =>
              rw [h3] at h
              simp only [Option.map_some', Option.some.injEq, Prod.mk.injEq] at h
              obtain ⟨hsrc, hrest⟩ := h
              rw [afterLit?_eq_some_iff] at h1 h2 h3
              refine ⟨(spanP pyIsSpace s2).1, ?_, ?_, ?_, ?_, ?_⟩
              · have hw1 : s2 = (spanP pyIsSpace s2).1 ++ (needsTransl ++ rest) := by
                  conv_lhs => rw [← spanP_append_eq pyIsSpace s2]
                  rw [h3, hrest]
                have hs1 : s1 = src ++ (srcClose ++ s2) := by
                  conv_lhs => rw [← spanP_append_eq (fun c => c != '<') s1]
                  rw [hsrc, h2]
                rw [hs1, hw1] at h1
                exact h1
              · rw [← hsrc]; simpa using he
              · intro c hc
                rw [← hsrc] at hc
                simpa using spanP_all (fun c => c != '<') s1 c hc
              · simpa using hw
              · exact spanP_all pyIsSpace s2
  · rintro ⟨ws, hs, hne, hlt, hwne, hws⟩
    subst hs
    have e1 : spanP (fun c => c != '<') (src ++ (srcClose ++ (ws ++ (needsTransl ++ rest))))
        = (src, srcClose ++ (ws ++ (needsTransl ++ rest))) := by
      rw [srcClose_cons]
      exact spanP_append _ (fun c hc => by simpa using hlt c hc) (by decide)
    have e2 : spanP pyIsSpace (ws ++ (needsTransl ++ rest)) = (ws, needsTransl ++ rest) := by
      rw [needsTransl_cons]
      exact spanP_append _ hws (by decide)
    unfold matchSearchAt
    rw [afterLit?_append_self]
    simp only [Option.some_bind, e1]
    simp only [List.isEmpty_eq_true, hne, if_false]
    rw [afterLit?_append_self]
    simp only [Option.some_bind, e2]
    simp only [List.isEmpty_eq_true, hwne, if_false]
    rw [afterLit?_append_self]
    rfl

theorem matchSearchAt_length {s src rest : List Char}
    (h : matchSearchAt s = some (src, rest)) : rest.length < s.length ∧ src ≠ [] := by
  obtain ⟨ws, hs, hne, -, -, -⟩ := matchSearchAt_some_iff.mp h
  refine ⟨?_, hne⟩
  have : 0 < src.length := List.length_pos.mpr hne
  rw [hs]
  simp [srcOpen, srcClose, needsTransl]
  omega

theorem spanP_length (q : Char → Bool) (s : List Char) :
    (spanP q s).1.length + (spanP q s).2.length = s.length := by
  have := congrArg List.length (spanP_append_eq q s)
  simpa using this

theorem grab2_length : ∀ {s g r : List Char}, grab2 s = some (g, r) →
    r.length < s.length := by
  intro s
  induction s with
  | nil => intro g r h; simp [grab2] at h
  | cons c cs ih =>
    intro g r h
    by_cases hc : c = '\n'
    · rw [grab2, if_pos hc] at h; exact absurd h (by simp)
    · rw [grab2, if_neg hc] at h
      cases h2 : grab2 cs with
      | some p =>
        obtain ⟨g', r'⟩ := p
        rw [h2] at h
        simp only [Option.some.injEq, Prod.mk.injEq] at h
        obtain ⟨-, hr⟩ := h
        subst hr
        have := ih h2
        simp only [List.length_cons]
        omega
      | none =>
        rw [h2] at h
        cases h3 : afterLit? tgtClose cs with
        | none => rw [h3] at h; exact absurd h (by simp)
        | some r' =>
          rw [h3] at h
          simp only [Option.some.injEq, Prod.mk.injEq] at h
          obtain ⟨-, hr⟩ := h
          subst hr
          have := afterLit?_length h3
          simp [tgtClose] at this
          simp only [List.length_cons]
          omega

theorem grab1_length : ∀ {s g1 g2 r : List Char}, grab1 s = some (g1, g2, r) →
    r.length < s.length := by
  intro s
  induction s with
  | nil => intro g1 g2 r h; simp [grab1] at h
  | cons c cs ih =>
    intro g1 g2 r h
    by_cases hc : c = '\n'
    · rw [grab1, if_pos hc] at h; exact absurd h (by simp)
    · rw [grab1, if_neg hc] at h
      cases h2 : grab1 cs with
      | some p =>
        obtain ⟨g1', g2', r'⟩ := p
        rw [h2] at h
        simp only [Option.some.injEq, Prod.mk.injEq] at h
        obtain ⟨-, -, hr⟩ := h
        subst hr
        have := ih h2
        simp only [List.length_cons]
        omega
      | none =>
        rw [h2] at h
        cases h3 : afterLit? srcClose cs with
        | none => rw [h3] at h; exact absurd h (by simp)
        | some s2 =>
          rw [h3] at h
          simp only [Option.some_bind] at h
          by_cases hw : (spanP pyIsSpace s2).1.isEmpty
          · rw [if_pos hw] at h; exact absurd h (by simp)
          · rw [if_neg hw] at h
            cases h4 : afterLit? tgtOpen (spanP pyIsSpace s2).2 with
            | none => rw [h4] at h; exact absurd h (by simp)
            | some s3 =>
              rw [h4] at h
              simp only [Option.some_bind] at h
              cases h5 : grab2 s3 with
              | none => rw [h5] at h; exact absurd h (by simp)
              | some p =>
                obtain ⟨g2', r'⟩ := p
                rw [h5] at h
                simp only [Option.map_some', Option.some.injEq, Prod.mk.injEq] at h
                obtain ⟨-, -, hr⟩ := h
                subst hr
                have l3 := afterLit?_length h3
                have l4 := afterLit?_length h4
                have l5 := grab2_length h5
                have lsp := spanP_length pyIsSpace s2
                simp [srcClose] at l3
                simp [tgtOpen] at l4
                simp only [List.length_cons]
                omega

theorem matchDoneAt_length {s g1 g2 rest : List Char}
    (h : matchDoneAt s = some (g1, g2, rest)) : rest.length < s.length := by
  unfold matchDoneAt at h
  cases h1 : afterLit? srcOpen s with
  | none => rw [h1] at h; exact absurd h (by simp)
  | some s1 =>
    rw [h1] at h
    have := grab1_length h
    have := afterLit?_length h1
    simp [srcOpen] at this
    omega

/-! ### Fuel irrelevance and unfolding equations -/

theorem searchScan_mono : ∀ (n m : Nat) (s : List Char), s.length ≤ n → s.length ≤ m →
    searchScan n s = searchScan m s := by
  intro n
  induction n with
  | zero =>
    intro m s hn hm
    have hs : s = [] := List.length_eq_zero.mp (Nat.le_zero.mp hn)
    subst hs
    cases m <;> rfl
  | succ k ih =>
    intro m s hn hm
    cases s with
    | nil => cases m <;> rfl
    | cons c cs =>
      cases m with
      | zero => simp at hm
      | succ m' =>
        simp only [List.length_cons] at hn hm
        cases h : matchSearchAt (c :: cs) with
        | none =>
          simp only [searchScan, h]
          exact ih m' cs (by omega) (by omega)
        | some p =>
          obtain ⟨src, rest⟩ := p
          have hlt := (matchSearchAt_length h).1
          simp only [List.length_cons] at hlt
          simp only [searchScan, h]
          rw [ih m' rest (by omega) (by omega)]

theorem searchFindAll_cons_some {c : Char} {cs src rest : List Char}
    (h : matchSearchAt (c :: cs) = some (src, rest)) :
    searchFindAll (c :: cs) = src :: searchFindAll rest := by
  have hlt := (matchSearchAt_length h).1
  simp only [List.length_cons] at hlt
  unfold searchFindAll
  simp only [List.length_cons, searchScan, h]
  rw [searchScan_mono cs.length rest.length rest (by omega) le_rfl]

theorem searchFindAll_cons_none {c : Char} {cs : List Char}
    (h : matchSearchAt (c :: cs) = none) :
    searchFindAll (c :: cs) = searchFindAll cs := by
  unfold searchFindAll
  simp only [List.length_cons, searchScan, h]

theorem doneScan_mono : ∀ (n m : Nat) (s : List Char), s.length ≤ n → s.length ≤ m →
    doneScan n s = doneScan m s := by
  intro n
  induction n with
  | zero =>
    intro m s hn hm
    have hs : s = [] := List.length_eq_zero.mp (Nat.le_zero.mp hn)
    subst hs
    cases m <;> rfl
  | succ k ih =>
    intro m s hn hm
    cases s with
    | nil => cases m <;> rfl
    | cons c cs =>
      cases m with
      | zero => simp at hm
      | succ m' =>
        simp only [List.length_cons] at hn hm
        cases h : matchDoneAt (c :: cs) with
        | none =>
          simp only [doneScan, h]
          exact ih m' cs (by omega) (by omega)
        | some p =>
          obtain ⟨g1, g2, rest⟩ := p
          have hlt := matchDoneAt_length h
          simp only [List.length_cons] at hlt
          simp only [doneScan, h]
          rw [ih m' rest (by omega) (by omega)]

theorem doneFindAll_cons_some {c : Char} {cs g1 g2 rest : List Char}
    (h : matchDoneAt (c :: cs) = some (g1, g2, rest)) :
    doneFindAll (c :: cs) = (g1, g2) :: doneFindAll rest := by
  have hlt := matchDoneAt_length h
  simp only [List.length_cons] at hlt
  unfold doneFindAll
  simp only [List.length_cons, doneScan, h]
  rw [doneScan_mono cs.length rest.length rest (by omega) le_rfl]

theorem doneFindAll_cons_none {c : Char} {cs : List Char}
    (h : matchDoneAt (c :: cs) = none) :
    doneFindAll (c :: cs) = doneFindAll cs := by
  unfold doneFindAll
  simp only [List.length_cons, doneScan, h]

theorem replScan_mono (pat rep : List Char) :
    ∀ (n m : Nat) (s : List Char), s.length ≤ n → s.length ≤ m →
      replScan pat rep n s = replScan pat rep m s := by
  intro n
  induction n with
  | zero =>
    intro m s hn hm
    have hs : s = [] := List.length_eq_zero.mp (Nat.le_zero.mp hn)
    subst hs
    cases m <;> rfl
  | succ k ih =>
    intro m s hn hm
    cases s with
    | nil => cases m <;> rfl
    | cons c cs =>
      cases m with
      | zero => simp at hm
      | succ m' =>
        simp only [List.length_cons] at hn hm
        cases pat with
        | nil =>
          simp only [replScan, afterLit?]
          rw [ih m' cs (by omega) (by omega)]
        | cons p ps =>
          cases h : afterLit? (p :: ps) (c :: cs) with
          | none =>
            simp only [replScan, h]
            rw [ih m' cs (by omega) (by omega)]
          | some r =>
            have hl := afterLit?_length h
            simp only [List.length_cons] at hl
            simp only [replScan, h]
            rw [ih m' r (by omega) (by omega)]

theorem replaceAll_cons_some {p : Char} {ps r : List Char} (rep : List Char)
    {c : Char} {cs : List Char} (h : afterLit? (p :: ps) (c :: cs) = some r) :
    replaceAll (p :: ps) rep (c :: cs) = rep ++ replaceAll (p :: ps) rep r := by
  have hl := afterLit?_length h
  simp only [List.length_cons] at hl
  unfold replaceAll
  simp only [List.length_cons, replScan, h]
  rw [replScan_mono (p :: ps) rep cs.length r.length r (by omega) le_rfl]

theorem replaceAll_cons_none {pat : List Char} (rep : List Char)
    {c : Char} {cs : List Char} (h : afterLit? pat (c :: cs) = none) :
    replaceAll pat rep (c :: cs) = c :: replaceAll pat rep cs := by
  unfold replaceAll
  cases pat with
  | nil => simp [afterLit?] at h
  | cons p ps => simp only [List.length_cons, replScan, h]

/-! ### Python strings, sets, sorting and dicts

Python `str` comparison is lexicographic by code point; `sorted` /
`list.sort` is a stable ascending sort; a `dict` keeps keys in first-insertion
order and updates the value in place on key collision. -/

/-- Python `<` on strings: strict lexicographic order by code point. -/
def lexLt : List Char → List Char → Bool
  | [], [] => false
  | [], _ :: _ => true
  | _ :: _, [] => false
  | a :: as, b :: bs => if a < b then true else if a = b then lexLt as bs else false

/-- Insert into an ascending list, after any element not greater. -/
def insertLex (x : List Char) : List (List Char) → List (List Char)
  | [] => [x]
  | y :: ys => if lexLt x y then x :: y :: ys else y :: insertLex x ys

/-- Python `sorted` on a collection of strings (applied to sets below, so
stability is immaterial). -/
def sortLex (l : List (List Char)) : List (List Char) := l.foldr insertLex []

/-- Insert a pair into a list ascending by first component, after any pair
whose key is not greater (preserving stability). -/
def insertPair (x : List Char × List Char) :
    List (List Char × List Char) → List (List Char × List Char)
  | [] => [x]
  | y :: ys => if lexLt x.1 y.1 then x :: y :: ys else y :: insertPair x ys

/-- Python `list.sort(key=lambda it: it[0])`: stable ascending sort by first
component (elements are inserted left to right, each going after the pairs
with a key not greater than its own). -/
def sortPairs (l : List (List Char × List Char)) : List (List Char × List Char) :=
  l.foldl (fun acc x => insertPair x acc) []

/-- One `d[k] = v` step of Python dict construction: update the value in
place if the key is present, else append the binding. -/
def dictInsert (m : List (List Char × List Char)) (kv : List Char × List Char) :
    List (List Char × List Char) :=
  if m.any (fun p => p.1 == kv.1) then
    m.map (fun p => if p.1 == kv.1 then (p.1, kv.2) else p)
  else m ++ [kv]

/-- Python `dict(pairs)`: left-to-right insertion, last value wins. -/
def pydict (l : List (List Char × List Char)) : List (List Char × List Char) :=
  l.foldl dictInsert []

/-- Python `d[k]` / `d.get(k)` on the association-list model of a dict. -/
def dictGet (m : List (List Char × List Char)) (k : List Char) : Option (List Char) :=
  (m.find? (fun p => p.1 == k)).map Prod.snd

/-- Python `d.keys()`. -/
def dictKeys (m : List (List Char × List Char)) : List (List Char) := m.map Prod.fst

/-- Python `pat in s` (substring test). -/
def containsSub (pat : List Char) : List Char → Bool
  | [] => pat.isEmpty
  | c :: cs => (afterLit? pat (c :: cs)).isSome || containsSub pat cs

/-- Python `'\n'.join(items)`. -/
def joinNl : List (List Char) → List Char
  | [] => []
  | [x] => x
  | x :: y :: ys => x ++ '\n' :: joinNl (y :: ys)

/-- Python `s.split('\n')`. -/
def splitNl : List Char → List (List Char)
  | [] => [[]]
  | c :: cs =>
    if c = '\n' then [] :: splitNl cs
    else
      match splitNl cs with
      | [] => [[c]]
      | h :: t => (c :: h) :: t

/-! ### The program's operations

Paths become explicit parameters: the source document, the skip list, the
fix table and the (optional: the file may not exist) translated document. -/

/-- `DeeplTranslator.collect_translations`: `done_pattern.findall` on the
translated document, sorted by source text, built into a dict (last write
wins on duplicate keys).  When the translated file does not exist the
commented-out `FileNotFoundError` is skipped and `{}` is returned. -/
def collectTranslations : Option (List Char) → List (List Char × List Char)
  | none => []
  | some d => pydict (sortPairs (doneFindAll d))

/-- `DeeplTranslator.get_untranslated_items`.  Scans the source document with
`search_pattern`, collects the `source` captures into a set, subtracts the
skip list; in keep-known-translations mode computes the set of sources that
have no known translation and raises `IndexError` (modelled as
`Except.error ()`) when that set is empty while the candidate set is not.
The final assignment is `list(sorted(sources))` — the post-skip candidate
set, not `not_translated_sources`. -/
def getUntranslatedItems (doc : List Char) (skip : List (List Char)) (keep : Bool)
    (trDoc : Option (List Char)) : Except Unit (List (List Char)) :=
  let sources := (searchFindAll doc).dedup
  let sources2 := sources.filter (fun s => !(skip.contains s))
  if keep then
    let known := collectTranslations trDoc
    let notTr := sources2.filter (fun s => !((dictKeys known).contains s))
    if notTr.isEmpty && !sources2.isEmpty then Except.error ()
    else Except.ok (sortLex sources2)
  else Except.ok (sortLex sources2)

/-- The literal "before" string of `DeeplTranslator.translate`:
`f'<source>{k}</source>{new_line:<11}<target state="needs-translation"/>'`. -/
def oldPat (k : List Char) : List Char :=
  srcOpen ++ (k ++ (srcClose ++ (indentNl ++ needsTransl)))

/-- The literal "after" string of `DeeplTranslator.translate`:
`f'<source>{k}</source>{new_line:<11}<target>{v}</target>'`. -/
def newPat (k v : List Char) : List Char :=
  srcOpen ++ (k ++ (srcClose ++ (indentNl ++ (tgtOpen ++ (v ++ tgtClose)))))

/-- `DeeplTranslator.translate` (the merge-back step): build
`dict(zip(source_items, target_items))` and, for each binding in order,
replace every occurrence of the "before" literal by the "after" literal
(plain string replace, not regex substitution). -/
def translate (doc : List Char) (pairs : List (List Char × List Char)) : List Char :=
  (pydict pairs).foldl (fun d p => replaceAll (oldPat p.1) (newPat p.1 p.2) d) doc

/-- The `data` dict built by `DeeplTranslator.fix`: for each collected
translation value containing a faulty substring, map the whole value to the
value with that single fix applied (later fixes overwrite earlier ones for
the same value, each applied to the original value). -/
def buildFixData (translations fixes : List (List Char × List Char)) :
    List (List Char × List Char) :=
  translations.foldl
    (fun data p =>
      fixes.foldl
        (fun data2 f =>
          if containsSub f.1 p.2 then dictInsert data2 (p.2, replaceAll f.1 f.2 p.2)
          else data2)
        data)
    []

/-- `DeeplTranslator.fix`: apply the fix data to the translated document by
whole-value replacement; raise (`NotImplementedError`, modelled as
`Except.error ()`) when the document is unchanged. -/
def fixRun (trDoc : List Char) (fixes : List (List Char × List Char)) :
    Except Unit (List Char) :=
  let translations := collectTranslations (some trDoc)
  let data := buildFixData translations fixes
  let newText := data.foldl (fun txt p => replaceAll p.1 p.2 txt) trDoc
  if newText = trDoc then Except.error () else Except.ok newText

/-- The quota fields of `DeeplHistory` used by `DeeplTranslator.main`. -/
structure Hist where
  maxChars : Nat
  sentChars : Nat
  deriving DecidableEq

/-- Errors that `DeeplTranslator.main` can raise: `IndexError`
("Ya se han traducido todas las expresiones", propagated from
`get_untranslated_items`), `OverflowError` (quota) and `NameError`
("El fichero fuente está vacío"). -/
inductive MainErr where
  | alreadyTranslated
  | quotaExceeded
  | emptySource
  deriving DecidableEq

/-- The observable outcome of a successful `DeeplTranslator.main` run. -/
structure MainOk where
  /-- `length` as charged against the quota (`len('\n'.join(source_items))`). -/
  sent : Nat
  /-- The quota state written back by `history.save()`. -/
  persisted : Hist
  /-- `source_lang` passed to `deepl.translate_text`. -/
  srcLang : List Char
  /-- `target_lang` passed to `deepl.translate_text`. -/
  tgtLang : List Char
  /-- The text passed to `deepl.translate_text`. -/
  calledText : List Char
  /-- `zip(source_items, target_items)` as written by `save_raw`. -/
  raw : List (List Char × List Char)
  /-- The merged document written by `translate`. -/
  newDoc : List Char
  deriving DecidableEq

/-- `DeeplTranslator.main`, with the external `deepl.translate_text` call
abstracted as `api text srcLang tgtLang`.  `history.save()` only happens on
the success path, after the call. -/
def mainRun (hist : Hist) (doc : List Char) (skip : List (List Char)) (keep : Bool)
    (trDoc : Option (List Char)) (srcLangArg tgtLangArg : Option (List Char))
    (api : List Char → List Char → List Char → List Char) : Except MainErr MainOk :=
  match getUntranslatedItems doc skip keep trDoc with
  | .error _ => .error .alreadyTranslated
  | .ok items =>
    let source := joinNl items
    let length := source.length
    if hist.maxChars ≤ hist.sentChars + length then .error .quotaExceeded
    else if source.isEmpty then .error .emptySource
    else
      let srcLang := match srcLangArg with
        | some l => if l.isEmpty then "en".toList else l
        | none => "en".toList
      let tgtLang := match srcLangArg with
        | some l => if l.isEmpty then "es".toList else l
        | none => "es".toList
      let targets := splitNl (api source srcLang tgtLang)
      let pairs := items.zip targets
      .ok { sent := length,
            persisted := ⟨hist.maxChars, hist.sentChars + length⟩,
            srcLang := srcLang, tgtLang := tgtLang, calledText := source,
            raw := pairs, newDoc := translate doc pairs }

/-- The quota record persisted by a run, if any (`history.save()` is only
reached after a successful external call). -/
def savedState : Except MainErr MainOk → Option Hist
  | .ok r => some r.persisted
  | .error _ => none

/-! ### `DeeplHistory.init` (quota window handling) -/

/-- A Python `datetime` at the minute resolution used by the script's
`'%Y-%m-%d %H:%M'` timestamps; compared lexicographically. -/
structure PyDateTime where
  year : Nat
  month : Nat
  day : Nat
  hour : Nat
  minute : Nat
  deriving DecidableEq

/-- Python `datetime` `<`. -/
def dtLt (a b : PyDateTime) : Bool :=
  if a.year < b.year then true else if b.year < a.year then false
  else if a.month < b.month then true else if b.month < a.month then false
  else if a.day < b.day then true else if b.day < a.day then false
  else if a.hour < b.hour then true else if b.hour < a.hour then false
  else decide (a.minute < b.minute)

/-- Days in a month (Gregorian, as used by `dateutil`). -/
def daysInMonth (y m : Nat) : Nat :=
  if m = 2 then (if y % 4 = 0 ∧ (y % 100 ≠ 0 ∨ y % 400 = 0) then 29 else 28)
  else if m = 4 ∨ m = 6 ∨ m = 9 ∨ m = 11 then 30 else 31

/-- `date + relativedelta(months=1)`: advance the month (carrying into the
year) and clamp the day to the length of the target month. -/
def addMonth (t : PyDateTime) : PyDateTime :=
  let y := if t.month = 12 then t.year + 1 else t.year
  let m := if t.month = 12 then 1 else t.month + 1
  ⟨y, m, min t.day (daysInMonth y m), t.hour, t.minute⟩

/-- The last record of `deepl.json` as read by `DeeplHistory.init`. -/
structure DeeplRecord where
  maxCharsPerMonth : Nat
  sentChars : Nat
  date : PyDateTime
  deriving DecidableEq

/-- The state of `DeeplHistory` after `init`. -/
structure HistLoaded where
  maxCharsPerMonth : Nat
  sentChars : Nat
  startDate : PyDateTime
  deriving DecidableEq

/-- `DeeplHistory.init`: load the last record; if now is strictly past
`start_date + relativedelta(months=1)`, reset the window (`start_date = now`,
`sent_chars = 0`), else keep the stored values. -/
def historyInit (rec : DeeplRecord) (now : PyDateTime) : HistLoaded :=
  if dtLt (addMonth rec.date) now then
    ⟨rec.maxCharsPerMonth, 0, now⟩
  else
    ⟨rec.maxCharsPerMonth, rec.sentChars, rec.date⟩

/-! ### Order lemmas for `lexLt` and the insertion sorts -/

/-- Non-strict comparison as a proposition: `a` does not come after `b`. -/
def lexLe (a b : List Char) : Prop := lexLt b a = false

theorem lexLt_irrefl : ∀ (a : List Char), lexLt a a = false := by
  intro a
  induction a with
  | nil => rfl
  | cons x xs ih => simp [lexLt, ih]

theorem lexLt_asymm : ∀ {a b : List Char}, lexLt a b = true → lexLt b a = false := by
  intro a
  induction a with
  | nil =>
    intro b h
    cases b with
    | nil => simp [lexLt] at h
    | cons y ys => rfl
  | cons x xs ih =>
    intro b h
    cases b with
    | nil => simp [lexLt] at h
    | cons y ys =>
      rw [lexLt] at h ⊢
      by_cases h1 : x < y
      · have h2 : ¬ y < x := lt_asymm h1
        have h3 : y ≠ x := fun he => absurd (he ▸ h1) (lt_irrefl x)
        simp [h2, h3]
      · by_cases h2 : x = y
        · subst h2
          rw [if_neg h1, if_pos rfl] at h
          simp [lt_irrefl, ih h]
        · rw [if_neg h1, if_neg h2] at h
          exact absurd h (by simp)

theorem lexLt_trans : ∀ {a b c : List Char},
    lexLt a b = true → lexLt b c = true → lexLt a c = true := by
  intro a
  induction a with
  | nil =>
    intro b c hab hbc
    cases b with
    | nil => simp [lexLt] at hab
    | cons y ys =>
      cases c with
      | nil => simp [lexLt] at hbc
      | cons z zs => rfl
  | cons x xs ih =>
    intro b c hab hbc
    cases b with
    | nil => simp [lexLt] at hab
    | cons y ys =>
      cases c with
      | nil => simp [lexLt] at hbc
      | cons z zs =>
        rw [lexLt] at hab hbc ⊢
        by_cases h1 : x < y
        · by_cases h2 : y < z
          · simp [lt_trans h1 h2]
          · by_cases h3 : y = z
            · subst h3; simp [h1]
            · rw [if_neg h2, if_neg h3] at hbc; exact absurd hbc (by simp)
        · by_cases h4 : x = y
          · subst h4
            rw [if_neg h1, if_pos rfl] at hab
            by_cases h2 : x < z
            · simp [h2]
            · by_cases h3 : x = z
              · subst h3
                rw [if_neg h2, if_pos rfl] at hbc
                simp [lt_irrefl, ih hab hbc]
              · rw [if_neg h2, if_neg h3] at hbc; exact absurd hbc (by simp)
          · rw [if_neg h1, if_neg h4] at hab; exact absurd hab (by simp)

theorem mem_insertLex {a x : List Char} : ∀ {l : List (List Char)},
    a ∈ insertLex x l ↔ a = x ∨ a ∈ l := by
  intro l
  induction l with
  | nil => simp [insertLex]
  | cons y ys ih =>
    rw [insertLex]
    by_cases h : lexLt x y
    · simp [h]
    · rw [if_neg h]
      simp only [List.mem_cons, ih]
      tauto

theorem mem_sortLex {a : List Char} : ∀ {l : List (List Char)},
    a ∈ sortLex l ↔ a ∈ l := by
  intro l
  induction l with
  | nil => simp [sortLex]
  | cons x xs ih =>
    show a ∈ insertLex x (sortLex xs) ↔ _
    rw [mem_insertLex]
    simp [ih]

theorem pairwise_insertLex {x : List Char} : ∀ {l : List (List Char)},
    List.Pairwise lexLe l → List.Pairwise lexLe (insertLex x l) := by
  intro l
  induction l with
  | nil => intro _; simp [insertLex, List.pairwise_cons]
  | cons y ys ih =>
    intro hp
    rw [List.pairwise_cons] at hp
    obtain ⟨hy, hys⟩ := hp
    rw [insertLex]
    by_cases h : lexLt x y
    · rw [if_pos h]
      refine List.pairwise_cons.mpr ⟨?_, List.pairwise_cons.mpr ⟨hy, hys⟩⟩
      intro b hb
      rcases List.mem_cons.mp hb with hb | hb
      · subst hb; exact lexLt_asymm h
      · have h1 : lexLt b y = false := hy b hb
        show lexLt b x = false
        cases h2 : lexLt b x with
        | false => rfl
        | true => rw [lexLt_trans h2 h] at h1; exact absurd h1 (by simp)
    · rw [if_neg h]
      refine List.pairwise_cons.mpr ⟨?_, ih hys⟩
      intro b hb
      rcases mem_insertLex.mp hb with hb | hb
      · subst hb
        show lexLt b y = false
        simpa using h
      · exact hy b hb

theorem pairwise_sortLex : ∀ (l : List (List Char)), List.Pairwise lexLe (sortLex l) := by
  intro l
  induction l with
  | nil => simp [sortLex]
  | cons x xs ih => exact pairwise_insertLex ih

/-! ### Characterizations of `get_untranslated_items` and `main` -/

theorem searchScan_mem_ne_nil : ∀ (n : Nat) (s : List Char), ∀ src ∈ searchScan n s, src ≠ [] := by
  intro n
  induction n with
  | zero => intro s src h; simp [searchScan] at h
  | succ k ih =>
    intro s src h
    cases s with
    | nil => simp [searchScan] at h
    | cons c cs =>
      rw [searchScan] at h
      cases hm : matchSearchAt (c :: cs) with
      | none => rw [hm] at h; exact ih cs src h
      | some p =>
        obtain ⟨sr, rest⟩ := p
        rw [hm] at h
        rcases List.mem_cons.mp h with h1 | h1
        · subst h1; exact (matchSearchAt_length hm).2
        · exact ih rest src h1

theorem searchFindAll_mem_ne_nil {s : List Char} : ∀ src ∈ searchFindAll s, src ≠ [] :=
  searchScan_mem_ne_nil s.length s

/-- Whatever the mode, a successful `get_untranslated_items` returns exactly
the sorted, deduplicated, skip-filtered scan result. -/
theorem getUntranslatedItems_ok {doc : List Char} {skip : List (List Char)} {keep : Bool}
    {trDoc : Option (List Char)} {items : List (List Char)}
    (h : getUntranslatedItems doc skip keep trDoc = .ok items) :
    items = sortLex (((searchFindAll doc).dedup).filter (fun s => !(skip.contains s))) := by
  unfold getUntranslatedItems at h
  cases keep with
  | false =>
    rw [if_neg Bool.false_ne_true] at h
    simp only [Except.ok.injEq] at h
    exact h.symm
  | true =>
    rw [if_pos rfl] at h
    simp only [] at h
    split at h
    · exact absurd h (by simp)
    · simp only [Except.ok.injEq] at h
      exact h.symm

theorem getUntranslatedItems_mem {doc : List Char} {skip : List (List Char)} {keep : Bool}
    {trDoc : Option (List Char)} {items : List (List Char)}
    (h : getUntranslatedItems doc skip keep trDoc = .ok items) (s : List Char) :
    s ∈ items ↔ s ∈ searchFindAll doc ∧ s ∉ skip := by
  rw [getUntranslatedItems_ok h, mem_sortLex, List.mem_filter, List.mem_dedup]
  simp [List.contains]

theorem getUntranslatedItems_sorted {doc : List Char} {skip : List (List Char)} {keep : Bool}
    {trDoc : Option (List Char)} {items : List (List Char)}
    (h : getUntranslatedItems doc skip keep trDoc = .ok items) :
    List.Pairwise lexLe items := by
  rw [getUntranslatedItems_ok h]
  exact pairwise_sortLex _

theorem getUntranslatedItems_ne_nil {doc : List Char} {skip : List (List Char)} {keep : Bool}
    {trDoc : Option (List Char)} {items : List (List Char)}
    (h : getUntranslatedItems doc skip keep trDoc = .ok items) :
    ∀ s ∈ items, s ≠ [] := by
  intro s hs
  exact searchFindAll_mem_ne_nil s (((getUntranslatedItems_mem h s).mp hs).1)

theorem joinNl_eq_nil_iff {items : List (List Char)} (h : ∀ s ∈ items, s ≠ []) :
    joinNl items = [] ↔ items = [] := by
  cases items with
  | nil => simp [joinNl]
  | cons x xs =>
    cases xs with
    | nil =>
      simp only [joinNl]
      constructor
      · intro hx; exact absurd hx (h x (by simp))
      · intro hx; exact absurd hx (by simp)
    | cons y ys => simp [joinNl]

/-! ### Canonically rendered documents

For the merge/extraction round-trip claims we study documents that are
concatenations of pending segments, completed segments and markup-free
filler, all in the exact layout produced by the script itself
(`</source>` followed by a newline padded to column 11).  `AllNone pat B
rest` states that no occurrence of the literal `pat` starts at any position
of the block `B` when the text continues with `rest`. -/

/-- No occurrence of `pat` starts anywhere in `B` (arbitrary continuation
`rest`). -/
def AllNone (pat B rest : List Char) : Prop :=
  ∀ y z, B = y ++ z → z ≠ [] → afterLit? pat (z ++ rest) = none

theorem allNone_nil {pat rest : List Char} : AllNone pat [] rest := by
  intro y z hyz hz
  exact absurd (List.append_eq_nil.mp hyz.symm).2 hz

theorem allNone_append {pat A B rest : List Char} (h1 : AllNone pat A (B ++ rest))
    (h2 : AllNone pat B rest) : AllNone pat (A ++ B) rest := by
  intro y z hyz hz
  rcases List.append_eq_append_iff.mp hyz with ⟨l, hl1, hl2⟩ | ⟨l, hl1, hl2⟩
  · exact h2 l z hl2 hz
  · cases l with
    | nil =>
      simp only [List.nil_append] at hl2
      subst hl2
      exact h2 [] z rfl hz
    | cons a as =>
      subst hl2
      rw [List.append_assoc]
      exact h1 y (a :: as) hl1 (by simp)

theorem allNone_head_ne {p : Char} {ps B rest : List Char}
    (h : ∀ c ∈ B, c ≠ p) : AllNone (p :: ps) B rest := by
  intro y z hyz hz
  cases z with
  | nil => exact absurd rfl hz
  | cons c cz =>
    have hc : c ∈ B := by rw [hyz]; simp
    exact afterLit?_head_ne (fun he => (h c hc) he.symm)

theorem allNone_cons {pat : List Char} {c : Char} {B rest : List Char}
    (h0 : afterLit? pat ((c :: B) ++ rest) = none) (h1 : AllNone pat B rest) :
    AllNone pat (c :: B) rest := by
  intro y z hyz hz
  cases y with
  | nil =>
    simp at hyz
    rw [← hyz]
    exact h0
  | cons a as =>
    simp only [List.cons_append, List.cons.injEq] at hyz
    exact h1 as z hyz.2 hz

theorem allNone_of_extend {p B rest : List Char} (h : AllNone p B rest) (Q : List Char) :
    AllNone (p ++ Q) B rest := by
  intro y z hyz hz
  rw [afterLit?_append, h y z hyz hz]
  rfl

/-! Mismatches between the fixed literals (all hold by computation, for any
continuation). -/

theorem open_vs_srcClose (X : List Char) : afterLit? srcOpen (srcClose ++ X) = none := rfl

theorem open_vs_needsTransl (X : List Char) :
    afterLit? srcOpen (needsTransl ++ X) = none := rfl

theorem open_vs_tgtOpen (X : List Char) : afterLit? srcOpen (tgtOpen ++ X) = none := rfl

theorem open_vs_tgtClose (X : List Char) : afterLit? srcOpen (tgtClose ++ X) = none := rfl

theorem needsTransl_vs_tgtOpen (X : List Char) :
    afterLit? needsTransl (tgtOpen ++ X) = none := rfl

theorem tgtOpen_vs_needsTransl (X : List Char) :
    afterLit? tgtOpen (needsTransl ++ X) = none := rfl

/-! `AllNone srcOpen` for each kind of chunk a canonical block is made of. -/

theorem allNone_srcOpen_noLt {B : List Char} (rest : List Char)
    (h : ∀ c ∈ B, c ≠ '<') : AllNone srcOpen B rest :=
  allNone_head_ne h

theorem allNone_srcOpen_srcClose (rest : List Char) : AllNone srcOpen srcClose rest :=
  allNone_cons (open_vs_srcClose rest) (allNone_head_ne (by decide))

theorem allNone_srcOpen_needsTransl (rest : List Char) :
    AllNone srcOpen needsTransl rest :=
  allNone_cons (open_vs_needsTransl rest) (allNone_head_ne (by decide))

theorem allNone_srcOpen_tgtOpen (rest : List Char) : AllNone srcOpen tgtOpen rest :=
  allNone_cons (open_vs_tgtOpen rest) (allNone_head_ne (by decide))

theorem allNone_srcOpen_tgtClose (rest : List Char) : AllNone srcOpen tgtClose rest :=
  allNone_cons (open_vs_tgtClose rest) (allNone_head_ne (by decide))

/-! ### Canonical blocks -/

/-- A pending segment as the script itself lays it out, ending the line. -/
def pendBlock (s : List Char) : List Char := oldPat s ++ ['\n']

/-- A completed segment in the same layout. -/
def doneBlock (s t : List Char) : List Char := newPat s t ++ ['\n']

theorem pendBlock_eq (s : List Char) :
    pendBlock s = '<' :: ("source>".toList ++
      (s ++ (srcClose ++ (indentNl ++ (needsTransl ++ ['\n']))))) := by
  rw [pendBlock, oldPat]
  simp only [List.append_assoc]
  rfl

theorem doneBlock_eq (s t : List Char) :
    doneBlock s t = '<' :: ("source>".toList ++
      (s ++ (srcClose ++ (indentNl ++ (tgtOpen ++ (t ++ (tgtClose ++ ['\n']))))))) := by
  rw [doneBlock, newPat]
  simp only [List.append_assoc]
  rfl

theorem allNone_srcOpen_pendTail {s : List Char} (hs : ∀ c ∈ s, c ≠ '<')
    (rest : List Char) :
    AllNone srcOpen ("source>".toList ++
      (s ++ (srcClose ++ (indentNl ++ (needsTransl ++ ['\n']))))) rest :=
  allNone_append (allNone_srcOpen_noLt _ (by decide))
    (allNone_append (allNone_srcOpen_noLt _ hs)
      (allNone_append (allNone_srcOpen_srcClose _)
        (allNone_append (allNone_srcOpen_noLt _ (by decide))
          (allNone_append (allNone_srcOpen_needsTransl _)
            (allNone_srcOpen_noLt _ (by decide))))))

theorem allNone_srcOpen_doneTail {s t : List Char} (hs : ∀ c ∈ s, c ≠ '<')
    (ht : ∀ c ∈ t, c ≠ '<') (rest : List Char) :
    AllNone srcOpen ("source>".toList ++
      (s ++ (srcClose ++ (indentNl ++ (tgtOpen ++ (t ++ (tgtClose ++ ['\n']))))))) rest :=
  allNone_append (allNone_srcOpen_noLt _ (by decide))
    (allNone_append (allNone_srcOpen_noLt _ hs)
      (allNone_append (allNone_srcOpen_srcClose _)
        (allNone_append (allNone_srcOpen_noLt _ (by decide))
          (allNone_append (allNone_srcOpen_tgtOpen _)
            (allNone_append (allNone_srcOpen_noLt _ ht)
              (allNone_append (allNone_srcOpen_tgtClose _)
                (allNone_srcOpen_noLt _ (by decide))))))))

/-- Two distinct `<`-free source names cannot both be followed by markup in a
way that makes one literal a prefix of the other text: the comparison
`S ++ '<'::X` against `s' ++ '<'::Y` always fails. -/
theorem mmcore : ∀ {S s' : List Char} (X Y : List Char),
    (∀ c ∈ S, c ≠ '<') → (∀ c ∈ s', c ≠ '<') → S ≠ [] → s' ≠ [] → S ≠ s' →
    afterLit? (S ++ '<' :: X) (s' ++ '<' :: Y) = none := by
  intro S
  induction S with
  | nil => intro s' X Y _ _ hne _ _; exact absurd rfl hne
  | cons a as ih =>
    intro s' X Y hS hs' _ hs'ne hne
    cases s' with
    | nil => exact absurd rfl hs'ne
    | cons b bs =>
      by_cases hab : a = b
      · subst hab
        simp only [List.cons_append]
        have hstep : afterLit? (a :: (as ++ '<' :: X)) (a :: (bs ++ '<' :: Y)) =
            afterLit? (as ++ '<' :: X) (bs ++ '<' :: Y) := by
          simp [afterLit?]
        rw [hstep]
        cases as with
        | nil =>
          cases bs with
          | nil => exact absurd rfl hne
          | cons c cs =>
            have hc : c ≠ '<' := hs' c (by simp)
            simp only [List.nil_append, List.cons_append]
            exact afterLit?_head_ne hc.symm
        | cons c cs =>
          cases bs with
          | nil =>
            have hc : c ≠ '<' := hS c (by simp)
            simp only [List.nil_append, List.cons_append]
            exact afterLit?_head_ne hc
          | cons d ds =>
            exact ih X Y (fun c hc => hS c (by simp [hc]))
              (fun c hc => hs' c (by simp [hc])) (by simp) (by simp)
              (fun he => hne (by rw [he]))
      · simp only [List.cons_append]
        exact afterLit?_head_ne hab

/-! Offset-0 facts for `replaceAll (oldPat S)` on each block. -/

theorem ra_pend_self (S : List Char) (rest : List Char) :
    afterLit? (oldPat S) (pendBlock S ++ rest) = some ('\n' :: rest) := by
  have h : pendBlock S ++ rest = oldPat S ++ ('\n' :: rest) := by
    rw [pendBlock]; simp
  rw [h]
  exact afterLit?_append_self _ _

theorem ra_pend_ne {S s : List Char} (hS : ∀ c ∈ S, c ≠ '<') (hs : ∀ c ∈ s, c ≠ '<')
    (hSne : S ≠ []) (hsne : s ≠ []) (hne : s ≠ S) (rest : List Char) :
    afterLit? (oldPat S) (pendBlock s ++ rest) = none := by
  have h2 : pendBlock s ++ rest = srcOpen ++
      (s ++ '<' :: ("/source>".toList ++ (indentNl ++ (needsTransl ++ ('\n' :: rest))))) := by
    rw [pendBlock, oldPat]
    simp only [List.append_assoc, List.cons_append, List.nil_append]
    rfl
  rw [h2,
    show oldPat S = srcOpen ++
      (S ++ '<' :: ("/source>".toList ++ (indentNl ++ needsTransl))) from rfl,
    afterLit?_append, afterLit?_append_self]
  simp only [Option.some_bind]
  exact mmcore _ _ hS hs hSne hsne hne.symm

theorem ra_done {S s t : List Char} (hS : ∀ c ∈ S, c ≠ '<') (hs : ∀ c ∈ s, c ≠ '<')
    (hSne : S ≠ []) (hsne : s ≠ []) (rest : List Char) :
    afterLit? (oldPat S) (doneBlock s t ++ rest) = none := by
  by_cases hse : s = S
  · subst hse
    have h2 : doneBlock s t ++ rest = (srcOpen ++ (s ++ (srcClose ++ indentNl))) ++
        (tgtOpen ++ (t ++ (tgtClose ++ ('\n' :: rest)))) := by
      rw [doneBlock, newPat]
      simp [List.append_assoc]
    have h1 : oldPat s = (srcOpen ++ (s ++ (srcClose ++ indentNl))) ++ needsTransl := by
      rw [oldPat]
      simp [List.append_assoc]
    rw [h2, h1, afterLit?_append, afterLit?_append_self]
    simp only [Option.some_bind]
    exact needsTransl_vs_tgtOpen _
  · have h2 : doneBlock s t ++ rest = srcOpen ++
        (s ++ '<' :: ("/source>".toList ++
          (indentNl ++ (tgtOpen ++ (t ++ (tgtClose ++ ('\n' :: rest))))))) := by
      rw [doneBlock, newPat]
      simp only [List.append_assoc, List.cons_append, List.nil_append]
      rfl
    rw [h2,
      show oldPat S = srcOpen ++
        (S ++ '<' :: ("/source>".toList ++ (indentNl ++ needsTransl))) from rfl,
      afterLit?_append, afterLit?_append_self]
    simp only [Option.some_bind]
    exact mmcore _ _ hS hs hSne hsne (fun he => hse he.symm)

/-! Computation of `grab1`/`grab2` on canonical blocks. -/

theorem grab1_srcClose_nl (W : List Char) : grab1 (srcClose ++ '\n' :: W) = none := rfl

theorem grab2_tgtClose_nl (W : List Char) : grab2 (tgtClose ++ '\n' :: W) = none := rfl

/-- The continuation of `done_pattern` after `</source>` when the text goes
on with a newline: the lazy `\s+?` takes the whole whitespace run, then
`<target>` and the greedy target group are matched. -/
def tailCont (W : List Char) : Option (List Char × List Char) :=
  (afterLit? tgtOpen (spanP pyIsSpace ('\n' :: W)).2).bind grab2

theorem grab2_block {t : List Char} (ht : t ≠ []) (htn : ∀ c ∈ t, c ≠ '\n')
    (W : List Char) : grab2 (t ++ (tgtClose ++ '\n' :: W)) = some (t, '\n' :: W) := by
  induction t with
  | nil => exact absurd rfl ht
  | cons x t' ih =>
    have hx : x ≠ '\n' := htn x (by simp)
    cases t' with
    | nil =>
      show grab2 (x :: (tgtClose ++ '\n' :: W)) = some ([x], '\n' :: W)
      rw [grab2, if_neg hx]
      simp only [grab2_tgtClose_nl, afterLit?_append_self]
    | cons y t'' =>
      have ih' := ih (by simp) (fun c hc => htn c (by simp [hc]))
      show grab2 (x :: ((y :: t'') ++ (tgtClose ++ '\n' :: W))) = _
      rw [grab2, if_neg hx, ih']

theorem grab1_block {s : List Char} (hs : s ≠ []) (hsl : ∀ c ∈ s, c ≠ '<')
    (hsn : ∀ c ∈ s, c ≠ '\n') (W : List Char) :
    grab1 (s ++ (srcClose ++ '\n' :: W)) =
      (tailCont W).map (fun p => (s, p.1, p.2)) := by
  induction s with
  | nil => exact absurd rfl hs
  | cons x s' ih =>
    have hx : x ≠ '\n' := hsn x (by simp)
    cases s' with
    | nil =>
      show grab1 (x :: (srcClose ++ '\n' :: W)) = _
      rw [grab1, if_neg hx]
      simp only [grab1_srcClose_nl, afterLit?_append_self, Option.some_bind]
      have hne : (spanP pyIsSpace ('\n' :: W)).1.isEmpty = false := by
        rw [spanP]
        simp [show pyIsSpace '\n' = true from rfl]
      rw [if_neg (by simp [hne])]
      unfold tailCont
      cases h4 : afterLit? tgtOpen (spanP pyIsSpace ('\n' :: W)).2 with
      | none => rfl
      | some s3 => rfl
    | cons y s'' =>
      have ih' := ih (by simp) (fun c hc => hsl c (by simp [hc]))
        (fun c hc => hsn c (by simp [hc]))
      show grab1 (x :: ((y :: s'') ++ (srcClose ++ '\n' :: W))) = _
      rw [grab1, if_neg hx, ih']
      cases h4 : tailCont W with
      | none =>
        simp only [Option.map_none']
        have hy : afterLit? srcClose ((y :: s'') ++ (srcClose ++ '\n' :: W)) = none := by
          simp only [List.cons_append]
          exact afterLit?_head_ne (fun he => (hsl y (by simp)) he.symm)
        rw [hy]
        rfl
      | some p => rfl

/-! Match-level facts for canonical blocks. -/

theorem matchSearchAt_pendBlock {s : List Char} (hs : s ≠ []) (hsl : ∀ c ∈ s, c ≠ '<')
    (rest : List Char) :
    matchSearchAt (pendBlock s ++ rest) = some (s, '\n' :: rest) := by
  apply matchSearchAt_some_iff.mpr
  refine ⟨indentNl, ?_, hs, hsl, by decide, by decide⟩
  rw [pendBlock, oldPat]
  simp [List.append_assoc]

theorem matchSearchAt_doneBlock {s t : List Char} (hs : s ≠ []) (hsl : ∀ c ∈ s, c ≠ '<')
    (rest : List Char) :
    matchSearchAt (doneBlock s t ++ rest) = none := by
  unfold matchSearchAt
  have h2 : doneBlock s t ++ rest = srcOpen ++ (s ++ (srcClose ++ (indentNl ++
      (tgtOpen ++ (t ++ (tgtClose ++ ('\n' :: rest))))))) := by
    rw [doneBlock, newPat]
    simp [List.append_assoc]
  rw [h2, afterLit?_append_self]
  simp only [Option.some_bind]
  have e1 : spanP (fun c => c != '<') (s ++ (srcClose ++ (indentNl ++
      (tgtOpen ++ (t ++ (tgtClose ++ ('\n' :: rest))))))) = (s, srcClose ++ (indentNl ++
      (tgtOpen ++ (t ++ (tgtClose ++ ('\n' :: rest)))))) := by
    rw [srcClose_cons]
    exact spanP_append _ (fun c hc => by simpa using hsl c hc) (by decide)
  rw [e1]
  simp only [List.isEmpty_eq_true, hs, if_false]
  rw [afterLit?_append_self]
  simp only [Option.some_bind]
  have e2 : spanP pyIsSpace (indentNl ++ (tgtOpen ++ (t ++ (tgtClose ++ ('\n' :: rest))))) =
      (indentNl, tgtOpen ++ (t ++ (tgtClose ++ ('\n' :: rest)))) := by
    rw [tgtOpen_cons]
    exact spanP_append _ (by decide) (by decide)
  rw [e2]
  simp only [List.isEmpty_eq_true, if_false, show indentNl ≠ [] from by decide]
  rw [needsTransl_vs_tgtOpen]
  rfl

theorem matchDoneAt_pendBlock {s : List Char} (hs : s ≠ []) (hsl : ∀ c ∈ s, c ≠ '<')
    (hsn : ∀ c ∈ s, c ≠ '\n') (rest : List Char) :
    matchDoneAt (pendBlock s ++ rest) = none := by
  unfold matchDoneAt
  have h2 : pendBlock s ++ rest = srcOpen ++ (s ++ (srcClose ++ ('\n' ::
      (List.replicate 10 ' ' ++ (needsTransl ++ ('\n' :: rest)))))) := by
    rw [pendBlock, oldPat]
    simp [List.append_assoc]
    rfl
  rw [h2, afterLit?_append_self]
  simp only [Option.some_bind]
  rw [grab1_block hs hsl hsn]
  have ht : tailCont (List.replicate 10 ' ' ++ (needsTransl ++ ('\n' :: rest))) = none := by
    unfold tailCont
    have hsp : spanP pyIsSpace ('\n' :: (List.replicate 10 ' ' ++
        (needsTransl ++ ('\n' :: rest)))) =
        ('\n' :: List.replicate 10 ' ', needsTransl ++ ('\n' :: rest)) := by
      show spanP pyIsSpace (('\n' :: List.replicate 10 ' ') ++
        (needsTransl ++ ('\n' :: rest))) = _
      rw [needsTransl_cons]
      exact spanP_append _ (by decide) (by decide)
    rw [hsp, tgtOpen_vs_needsTransl]
    rfl
  rw [ht]
  rfl

theorem matchDoneAt_doneBlock {s t : List Char} (hs : s ≠ []) (hsl : ∀ c ∈ s, c ≠ '<')
    (hsn : ∀ c ∈ s, c ≠ '\n') (ht : t ≠ []) (htn : ∀ c ∈ t, c ≠ '\n') (rest : List Char) :
    matchDoneAt (doneBlock s t ++ rest) = some (s, t, '\n' :: rest) := by
  unfold matchDoneAt
  have h2 : doneBlock s t ++ rest = srcOpen ++ (s ++ (srcClose ++ ('\n' ::
      (List.replicate 10 ' ' ++ (tgtOpen ++ (t ++ (tgtClose ++ ('\n' :: rest)))))))) := by
    rw [doneBlock, newPat]
    simp [List.append_assoc]
    rfl
  rw [h2, afterLit?_append_self]
  simp only [Option.some_bind]
  rw [grab1_block hs hsl hsn]
  have htc : tailCont (List.replicate 10 ' ' ++ (tgtOpen ++ (t ++ (tgtClose ++
      ('\n' :: rest))))) = some (t, '\n' :: rest) := by
    unfold tailCont
    have hsp : spanP pyIsSpace ('\n' :: (List.replicate 10 ' ' ++
        (tgtOpen ++ (t ++ (tgtClose ++ ('\n' :: rest)))))) =
        ('\n' :: List.replicate 10 ' ', tgtOpen ++ (t ++ (tgtClose ++ ('\n' :: rest)))) := by
      show spanP pyIsSpace (('\n' :: List.replicate 10 ' ') ++
        (tgtOpen ++ (t ++ (tgtClose ++ ('\n' :: rest))))) = _
      rw [tgtOpen_cons]
      exact spanP_append _ (by decide) (by decide)
    rw [hsp, afterLit?_append_self]
    simp only [Option.some_bind]
    exact grab2_block ht htn rest
  rw [htc]
  rfl

/-! Scanner-level skip and step lemmas for blocks. -/

/-- No `search_pattern` match starts anywhere in `B`. -/
def ScanNoneS (B rest : List Char) : Prop :=
  ∀ y z, B = y ++ z → z ≠ [] → matchSearchAt (z ++ rest) = none

/-- No `done_pattern` match starts anywhere in `B`. -/
def ScanNoneD (B rest : List Char) : Prop :=
  ∀ y z, B = y ++ z → z ≠ [] → matchDoneAt (z ++ rest) = none

theorem matchSearchAt_none_of_open {s : List Char} (h : afterLit? srcOpen s = none) :
    matchSearchAt s = none := by
  unfold matchSearchAt
  rw [h]
  rfl

theorem matchDoneAt_none_of_open {s : List Char} (h : afterLit? srcOpen s = none) :
    matchDoneAt s = none := by
  unfold matchDoneAt
  rw [h]
  rfl

theorem matchSearchAt_nl (R : List Char) : matchSearchAt ('\n' :: R) = none := rfl

theorem matchDoneAt_nl (R : List Char) : matchDoneAt ('\n' :: R) = none := rfl

theorem scanNoneS_of_allNone {B rest : List Char} (h : AllNone srcOpen B rest) :
    ScanNoneS B rest :=
  fun y z hyz hz => matchSearchAt_none_of_open (h y z hyz hz)

theorem scanNoneD_of_allNone {B rest : List Char} (h : AllNone srcOpen B rest) :
    ScanNoneD B rest :=
  fun y z hyz hz => matchDoneAt_none_of_open (h y z hyz hz)

theorem scanNoneS_cons {c : Char} {B rest : List Char}
    (h0 : matchSearchAt ((c :: B) ++ rest) = none) (h1 : ScanNoneS B rest) :
    ScanNoneS (c :: B) rest := by
  intro y z hyz hz
  cases y with
  | nil =>
    simp at hyz
    rw [← hyz]
    exact h0
  | cons a as =>
    simp only [List.cons_append, List.cons.injEq] at hyz
    exact h1 as z hyz.2 hz

theorem scanNoneD_cons {c : Char} {B rest : List Char}
    (h0 : matchDoneAt ((c :: B) ++ rest) = none) (h1 : ScanNoneD B rest) :
    ScanNoneD (c :: B) rest := by
  intro y z hyz hz
  cases y with
  | nil =>
    simp at hyz
    rw [← hyz]
    exact h0
  | cons a as =>
    simp only [List.cons_append, List.cons.injEq] at hyz
    exact h1 as z hyz.2 hz

theorem searchFindAll_append_none {B rest : List Char} (h : ScanNoneS B rest) :
    searchFindAll (B ++ rest) = searchFindAll rest := by
  induction B with
  | nil => rfl
  | cons c B' ih =>
    have h0 : matchSearchAt (c :: (B' ++ rest)) = none := h [] (c :: B') rfl (by simp)
    rw [List.cons_append, searchFindAll_cons_none h0]
    exact ih (fun y z hyz hz => h (c :: y) z (by simp [hyz]) hz)

theorem doneFindAll_append_none {B rest : List Char} (h : ScanNoneD B rest) :
    doneFindAll (B ++ rest) = doneFindAll rest := by
  induction B with
  | nil => rfl
  | cons c B' ih =>
    have h0 : matchDoneAt (c :: (B' ++ rest)) = none := h [] (c :: B') rfl (by simp)
    rw [List.cons_append, doneFindAll_cons_none h0]
    exact ih (fun y z hyz hz => h (c :: y) z (by simp [hyz]) hz)

theorem replaceAll_append_none {pat rep B rest : List Char} (h : AllNone pat B rest) :
    replaceAll pat rep (B ++ rest) = B ++ replaceAll pat rep rest := by
  induction B with
  | nil => rfl
  | cons c B' ih =>
    have h0 : afterLit? pat (c :: (B' ++ rest)) = none := h [] (c :: B') rfl (by simp)
    rw [List.cons_append, replaceAll_cons_none rep h0]
    rw [ih (fun y z hyz hz => h (c :: y) z (by simp [hyz]) hz)]
    rfl

theorem oldPat_ne_nil (S : List Char) : oldPat S ≠ [] := by
  rw [show oldPat S = '<' :: ("source>".toList ++
    (S ++ (srcClose ++ (indentNl ++ needsTransl)))) from rfl]
  simp

theorem replaceAll_eq_some {pat rep r : List Char} {c : Char} {cs : List Char}
    (hpat : pat ≠ []) (h : afterLit? pat (c :: cs) = some r) :
    replaceAll pat rep (c :: cs) = rep ++ replaceAll pat rep r := by
  cases pat with
  | nil => exact absurd rfl hpat
  | cons p ps => exact replaceAll_cons_some rep h

/-! Per-block scanner equations. -/

theorem searchFindAll_pendBlock {s : List Char} (hs : s ≠ []) (hsl : ∀ c ∈ s, c ≠ '<')
    (rest : List Char) :
    searchFindAll (pendBlock s ++ rest) = s :: searchFindAll rest := by
  have h1 := matchSearchAt_pendBlock hs hsl rest
  rw [pendBlock_eq] at h1 ⊢
  rw [List.cons_append] at h1 ⊢
  rw [searchFindAll_cons_some h1, searchFindAll_cons_none (matchSearchAt_nl rest)]

theorem searchFindAll_doneBlock {s t : List Char} (hs : s ≠ []) (hsl : ∀ c ∈ s, c ≠ '<')
    (htl : ∀ c ∈ t, c ≠ '<') (rest : List Char) :
    searchFindAll (doneBlock s t ++ rest) = searchFindAll rest := by
  apply searchFindAll_append_none
  rw [doneBlock_eq]
  apply scanNoneS_cons
  · have h1 := matchSearchAt_doneBlock (t := t) hs hsl rest
    rw [doneBlock_eq] at h1
    rw [List.cons_append] at h1 ⊢
    exact h1
  · exact scanNoneS_of_allNone (allNone_srcOpen_doneTail hsl htl rest)

theorem searchFindAll_txt {u : List Char} (hu : ∀ c ∈ u, c ≠ '<') (rest : List Char) :
    searchFindAll (u ++ rest) = searchFindAll rest :=
  searchFindAll_append_none (scanNoneS_of_allNone (allNone_srcOpen_noLt rest hu))

theorem doneFindAll_pendBlock {s : List Char} (hs : s ≠ []) (hsl : ∀ c ∈ s, c ≠ '<')
    (hsn : ∀ c ∈ s, c ≠ '\n') (rest : List Char) :
    doneFindAll (pendBlock s ++ rest) = doneFindAll rest := by
  apply doneFindAll_append_none
  rw [pendBlock_eq]
  apply scanNoneD_cons
  · have h1 := matchDoneAt_pendBlock hs hsl hsn rest
    rw [pendBlock_eq] at h1
    rw [List.cons_append] at h1 ⊢
    exact h1
  · exact scanNoneD_of_allNone (allNone_srcOpen_pendTail hsl rest)

theorem doneFindAll_doneBlock {s t : List Char} (hs : s ≠ []) (hsl : ∀ c ∈ s, c ≠ '<')
    (hsn : ∀ c ∈ s, c ≠ '\n') (ht : t ≠ []) (htn : ∀ c ∈ t, c ≠ '\n')
    (rest : List Char) :
    doneFindAll (doneBlock s t ++ rest) = (s, t) :: doneFindAll rest := by
  have h1 := matchDoneAt_doneBlock hs hsl hsn ht htn rest
  rw [doneBlock_eq] at h1 ⊢
  rw [List.cons_append] at h1 ⊢
  rw [doneFindAll_cons_some h1, doneFindAll_cons_none (matchDoneAt_nl rest)]

theorem doneFindAll_txt {u : List Char} (hu : ∀ c ∈ u, c ≠ '<') (rest : List Char) :
    doneFindAll (u ++ rest) = doneFindAll rest :=
  doneFindAll_append_none (scanNoneD_of_allNone (allNone_srcOpen_noLt rest hu))

theorem replaceAll_pendBlock_self (S v rest : List Char) :
    replaceAll (oldPat S) (newPat S v) (pendBlock S ++ rest) =
      doneBlock S v ++ replaceAll (oldPat S) (newPat S v) rest := by
  have hsh : pendBlock S ++ rest = '<' :: (("source>".toList ++
      (S ++ (srcClose ++ (indentNl ++ (needsTransl ++ ['\n']))))) ++ rest) := by
    rw [pendBlock_eq, List.cons_append]
  have h0 : afterLit? (oldPat S) ('<' :: (("source>".toList ++
      (S ++ (srcClose ++ (indentNl ++ (needsTransl ++ ['\n']))))) ++ rest)) =
      some ('\n' :: rest) := by
    rw [← hsh]
    exact ra_pend_self S rest
  rw [hsh, replaceAll_eq_some (oldPat_ne_nil S) h0]
  have h2 : afterLit? (oldPat S) ('\n' :: rest) = none :=
    afterLit?_head_ne (by decide : '<' ≠ '\n')
  rw [replaceAll_cons_none _ h2, doneBlock]
  simp [List.append_assoc]

theorem replaceAll_pendBlock_ne {S s : List Char} (hS : ∀ c ∈ S, c ≠ '<')
    (hs : ∀ c ∈ s, c ≠ '<') (hSne : S ≠ []) (hsne : s ≠ []) (hne : s ≠ S)
    (v rest : List Char) :
    replaceAll (oldPat S) (newPat S v) (pendBlock s ++ rest) =
      pendBlock s ++ replaceAll (oldPat S) (newPat S v) rest := by
  apply replaceAll_append_none
  rw [pendBlock_eq]
  apply allNone_cons
  · have h1 := ra_pend_ne hS hs hSne hsne hne rest
    rw [pendBlock_eq] at h1
    rw [List.cons_append] at h1 ⊢
    exact h1
  · exact allNone_of_extend (allNone_srcOpen_pendTail hs rest) _

theorem replaceAll_doneBlock {S s t : List Char} (hS : ∀ c ∈ S, c ≠ '<')
    (hs : ∀ c ∈ s, c ≠ '<') (htl : ∀ c ∈ t, c ≠ '<') (hSne : S ≠ []) (hsne : s ≠ [])
    (v rest : List Char) :
    replaceAll (oldPat S) (newPat S v) (doneBlock s t ++ rest) =
      doneBlock s t ++ replaceAll (oldPat S) (newPat S v) rest := by
  apply replaceAll_append_none
  rw [doneBlock_eq]
  apply allNone_cons
  · have h1 := ra_done (t := t) hS hs hSne hsne rest
    rw [doneBlock_eq] at h1
    rw [List.cons_append] at h1 ⊢
    exact h1
  · exact allNone_of_extend (allNone_srcOpen_doneTail hs htl rest) _

theorem replaceAll_txt {S : List Char} {u : List Char} (hu : ∀ c ∈ u, c ≠ '<')
    (v rest : List Char) :
    replaceAll (oldPat S) (newPat S v) (u ++ rest) =
      u ++ replaceAll (oldPat S) (newPat S v) rest :=
  replaceAll_append_none (allNone_of_extend (allNone_srcOpen_noLt rest hu) _)

/-! ### Item-level model of canonical documents -/

/-- A canonical document is a concatenation of pending segments, completed
segments and markup-free filler text. -/
inductive XItem where
  | pend (s : List Char)
  | done (s t : List Char)
  | txt (u : List Char)
  deriving DecidableEq

/-- The text of one item. -/
def renderItem : XItem → List Char
  | .pend s => pendBlock s
  | .done s t => doneBlock s t
  | .txt u => u

/-- The text of a canonical document. -/
def render : List XItem → List Char
  | [] => []
  | it :: its => renderItem it ++ render its

/-- Well-formedness: segment texts are nonempty, single-line and free of
`<`; filler is free of `<`. -/
def WfItem : XItem → Prop
  | .pend s => s ≠ [] ∧ (∀ c ∈ s, c ≠ '<') ∧ (∀ c ∈ s, c ≠ '\n')
  | .done s t => (s ≠ [] ∧ (∀ c ∈ s, c ≠ '<') ∧ (∀ c ∈ s, c ≠ '\n')) ∧
      (t ≠ [] ∧ (∀ c ∈ t, c ≠ '<') ∧ (∀ c ∈ t, c ≠ '\n'))
  | .txt u => ∀ c ∈ u, c ≠ '<'

instance (it : XItem) : Decidable (WfItem it) :=
  match it with
  | .pend s => decidable_of_iff
      (s ≠ [] ∧ (∀ c ∈ s, c ≠ '<') ∧ (∀ c ∈ s, c ≠ '\n')) Iff.rfl
  | .done s t => decidable_of_iff
      ((s ≠ [] ∧ (∀ c ∈ s, c ≠ '<') ∧ (∀ c ∈ s, c ≠ '\n')) ∧
        (t ≠ [] ∧ (∀ c ∈ t, c ≠ '<') ∧ (∀ c ∈ t, c ≠ '\n'))) Iff.rfl
  | .txt u => decidable_of_iff (∀ c ∈ u, c ≠ '<') Iff.rfl

/-- The pending source texts of a canonical document, in order. -/
def pendSources : List XItem → List (List Char) :=
  List.filterMap fun it =>
    match it with
    | .pend s => some s
    | _ => none

/-- The completed `(source, target)` pairs of a canonical document, in order. -/
def donePairs : List XItem → List (List Char × List Char) :=
  List.filterMap fun it =>
    match it with
    | .done s t => some (s, t)
    | _ => none

/-- The effect of merging the translation `(S, v)` at the item level: every
pending segment for `S` becomes completed with `v`. -/
def substItem (S v : List Char) : XItem → XItem
  | .pend s => if s = S then .done S v else .pend s
  | it => it

/-- `search_pattern.finditer` on a canonical document finds exactly the
pending sources, in order. -/
theorem searchFindAll_render : ∀ (items : List XItem), (∀ it ∈ items, WfItem it) →
    searchFindAll (render items) = pendSources items := by
  intro items
  induction items with
  | nil => intro _; rfl
  | cons it its ih =>
    intro h
    have hit := h it (by simp)
    have hits := fun it' hit' => h it' (List.mem_cons_of_mem _ hit')
    cases it with
    | pend s =>
      obtain ⟨hs, hsl, -⟩ := hit
      show searchFindAll (pendBlock s ++ render its) = _
      rw [searchFindAll_pendBlock hs hsl, ih hits]
      rfl
    | done s t =>
      obtain ⟨⟨hs, hsl, -⟩, ⟨-, htl, -⟩⟩ := hit
      show searchFindAll (doneBlock s t ++ render its) = _
      rw [searchFindAll_doneBlock hs hsl htl, ih hits]
      rfl
    | txt u =>
      show searchFindAll (u ++ render its) = _
      rw [searchFindAll_txt hit, ih hits]
      rfl

/-- `done_pattern.findall` on a canonical document finds exactly the
completed pairs, in order. -/
theorem doneFindAll_render : ∀ (items : List XItem), (∀ it ∈ items, WfItem it) →
    doneFindAll (render items) = donePairs items := by
  intro items
  induction items with
  | nil => intro _; rfl
  | cons it its ih =>
    intro h
    have hit := h it (by simp)
    have hits := fun it' hit' => h it' (List.mem_cons_of_mem _ hit')
    cases it with
    | pend s =>
      obtain ⟨hs, hsl, hsn⟩ := hit
      show doneFindAll (pendBlock s ++ render its) = _
      rw [doneFindAll_pendBlock hs hsl hsn, ih hits]
      rfl
    | done s t =>
      obtain ⟨⟨hs, hsl, hsn⟩, ⟨ht, -, htn⟩⟩ := hit
      show doneFindAll (doneBlock s t ++ render its) = _
      rw [doneFindAll_doneBlock hs hsl hsn ht htn, ih hits]
      rfl
    | txt u =>
      show doneFindAll (u ++ render its) = _
      rw [doneFindAll_txt hit, ih hits]
      rfl

/-- Merging one `(S, v)` pair on a canonical document is exactly the
item-level substitution. -/
theorem replaceAll_render {S : List Char} (hSne : S ≠ []) (hS : ∀ c ∈ S, c ≠ '<')
    (v : List Char) : ∀ (items : List XItem), (∀ it ∈ items, WfItem it) →
    replaceAll (oldPat S) (newPat S v) (render items) =
      render (items.map (substItem S v)) := by
  intro items
  induction items with
  | nil => intro _; rfl
  | cons it its ih =>
    intro h
    have hit := h it (by simp)
    have hits := fun it' hit' => h it' (List.mem_cons_of_mem _ hit')
    cases it with
    | pend s =>
      obtain ⟨hs, hsl, -⟩ := hit
      by_cases hse : s = S
      · subst hse
        show replaceAll (oldPat s) (newPat s v) (pendBlock s ++ render its) = _
        rw [replaceAll_pendBlock_self, ih hits]
        show _ = renderItem (substItem s v (.pend s)) ++ _
        rw [show substItem s v (.pend s) = .done s v from by simp [substItem]]
        rfl
      · show replaceAll (oldPat S) (newPat S v) (pendBlock s ++ render its) = _
        rw [replaceAll_pendBlock_ne hS hsl hSne hs hse, ih hits]
        show _ = renderItem (substItem S v (.pend s)) ++ _
        rw [show substItem S v (.pend s) = .pend s from by simp [substItem, hse]]
        rfl
    | done s t =>
      obtain ⟨⟨hs, hsl, -⟩, ⟨-, htl, -⟩⟩ := hit
      show replaceAll (oldPat S) (newPat S v) (doneBlock s t ++ render its) = _
      rw [replaceAll_doneBlock hS hsl htl hSne hs, ih hits]
      rfl
    | txt u =>
      show replaceAll (oldPat S) (newPat S v) (u ++ render its) = _
      rw [replaceAll_txt hit, ih hits]
      rfl

/-! ### Dict and sort lemmas for the round-trip claim -/

theorem dictInsert_eq_append {acc : List (List Char × List Char)}
    {x : List Char × List Char} (hx : ∀ p ∈ acc, p.1 ≠ x.1) :
    dictInsert acc x = acc ++ [x] := by
  unfold dictInsert
  rw [if_neg]
  simp only [List.any_eq_true, not_exists, not_and]
  intro p hp
  simp [hx p hp]

theorem foldl_dictInsert_eq_append :
    ∀ (l acc : List (List Char × List Char)),
      (∀ p ∈ acc, ∀ q ∈ l, p.1 ≠ q.1) → (l.map Prod.fst).Nodup →
      l.foldl dictInsert acc = acc ++ l := by
  intro l
  induction l with
  | nil => intro acc _ _; simp
  | cons x l' ih =>
    intro acc hdisj hnodup
    show List.foldl dictInsert (dictInsert acc x) l' = _
    rw [dictInsert_eq_append (fun p hp => hdisj p hp x (by simp))]
    rw [List.map_cons, List.nodup_cons] at hnodup
    rw [ih (acc ++ [x]) ?_ hnodup.2]
    · simp
    · intro p hp q hq
      rcases List.mem_append.mp hp with h | h
      · exact hdisj p h q (by simp [hq])
      · simp only [List.mem_singleton] at h
        subst h
        intro he
        exact hnodup.1 (he ▸ List.mem_map_of_mem Prod.fst hq)

theorem pydict_self {l : List (List Char × List Char)}
    (h : (l.map Prod.fst).Nodup) : pydict l = l := by
  unfold pydict
  rw [foldl_dictInsert_eq_append l [] (by simp) h]
  simp

theorem dictGet_of_all {m : List (List Char × List Char)} {k t : List Char}
    (hall : ∀ p ∈ m, p.1 = k → p.2 = t) (hex : ∃ p ∈ m, p.1 = k) :
    dictGet m k = some t := by
  induction m with
  | nil => simp at hex
  | cons a m' ih =>
    unfold dictGet
    by_cases hk : a.1 = k
    · rw [List.find?]
      rw [show (a.1 == k) = true from by simp [hk]]
      simp [hall a (by simp) hk]
    · rw [List.find?]
      rw [show (a.1 == k) = false from by simp [hk]]
      apply ih
      · exact fun p hp => hall p (by simp [hp])
      · obtain ⟨p, hp, hpk⟩ := hex
        rcases List.mem_cons.mp hp with h | h
        · exact absurd (h ▸ hpk) hk
        · exact ⟨p, h, hpk⟩

theorem dictInsert_all {acc : List (List Char × List Char)}
    {x : List Char × List Char} {k t : List Char}
    (hacc : ∀ p ∈ acc, p.1 = k → p.2 = t) (hx : x.1 = k → x.2 = t) :
    ∀ p ∈ dictInsert acc x, p.1 = k → p.2 = t := by
  intro p hp hpk
  unfold dictInsert at hp
  split at hp
  · rw [List.mem_map] at hp
    obtain ⟨q, hq, hpq⟩ := hp
    by_cases hqx : q.1 = x.1
    · rw [if_pos (by simp [hqx])] at hpq
      rw [← hpq] at hpk ⊢
      exact hx (hqx ▸ hpk)
    · rw [if_neg (by simp [hqx])] at hpq
      subst hpq
      exact hacc q hq hpk
  · rcases List.mem_append.mp hp with h | h
    · exact hacc p h hpk
    · simp only [List.mem_singleton] at h
      subst h
      exact hx hpk

theorem dictInsert_exists_acc {acc : List (List Char × List Char)}
    {x : List Char × List Char} {k : List Char}
    (h : ∃ p ∈ acc, p.1 = k) : ∃ p ∈ dictInsert acc x, p.1 = k := by
  obtain ⟨q, hq, hqk⟩ := h
  unfold dictInsert
  split
  · by_cases hqx : q.1 = x.1
    · refine ⟨(q.1, x.2), ?_, hqk⟩
      rw [List.mem_map]
      exact ⟨q, hq, by simp [hqx]⟩
    · refine ⟨q, ?_, hqk⟩
      rw [List.mem_map]
      exact ⟨q, hq, by simp [hqx]⟩
  · exact ⟨q, List.mem_append_left _ hq, hqk⟩

theorem dictInsert_exists_self {acc : List (List Char × List Char)}
    {x : List Char × List Char} : ∃ p ∈ dictInsert acc x, p.1 = x.1 := by
  unfold dictInsert
  split
  · rename_i hany
    simp only [List.any_eq_true] at hany
    obtain ⟨q, hq, hqx⟩ := hany
    refine ⟨(q.1, x.2), ?_, by simpa using hqx⟩
    rw [List.mem_map]
    exact ⟨q, hq, by simp [show (q.1 == x.1) = true from hqx]⟩
  · exact ⟨x, by simp, rfl⟩

theorem foldl_dictInsert_get :
    ∀ (l acc : List (List Char × List Char)) (k t : List Char),
      (∀ p ∈ l, p.1 = k → p.2 = t) → (∀ p ∈ acc, p.1 = k → p.2 = t) →
      ((∃ p ∈ acc, p.1 = k) ∨ (∃ p ∈ l, p.1 = k)) →
      dictGet (l.foldl dictInsert acc) k = some t := by
  intro l
  induction l with
  | nil =>
    intro acc k t _ hacc hex
    simp only [List.foldl_nil]
    rcases hex with h | h
    · exact dictGet_of_all hacc h
    · simp at h
  | cons x l' ih =>
    intro acc k t hl hacc hex
    show dictGet (List.foldl dictInsert (dictInsert acc x) l') k = some t
    apply ih
    · exact fun p hp => hl p (by simp [hp])
    · exact dictInsert_all hacc (hl x (by simp))
    · rcases hex with h | h
      · exact Or.inl (dictInsert_exists_acc h)
      · obtain ⟨p, hp, hpk⟩ := h
        rcases List.mem_cons.mp hp with h1 | h1
        · subst h1
          exact Or.inl (hpk ▸ dictInsert_exists_self)
        · exact Or.inr ⟨p, h1, hpk⟩

theorem dictGet_pydict_of_all {l : List (List Char × List Char)} {k t : List Char}
    (hall : ∀ p ∈ l, p.1 = k → p.2 = t) (hex : ∃ p ∈ l, p.1 = k) :
    dictGet (pydict l) k = some t :=
  foldl_dictInsert_get l [] k t hall (by simp) (Or.inr hex)

theorem mem_insertPair {a x : List Char × List Char} :
    ∀ {l : List (List Char × List Char)}, a ∈ insertPair x l ↔ a = x ∨ a ∈ l := by
  intro l
  induction l with
  | nil => simp [insertPair]
  | cons y ys ih =>
    rw [insertPair]
    by_cases h : lexLt x.1 y.1
    · simp [h]
    · rw [if_neg h]
      simp only [List.mem_cons, ih]
      tauto

theorem mem_sortPairs {a : List Char × List Char} :
    ∀ {l : List (List Char × List Char)}, a ∈ sortPairs l ↔ a ∈ l := by
  have key : ∀ (l acc : List (List Char × List Char)),
      a ∈ l.foldl (fun acc x => insertPair x acc) acc ↔ a ∈ acc ∨ a ∈ l := by
    intro l
    induction l with
    | nil => intro acc; simp
    | cons x l' ih =>
      intro acc
      show a ∈ l'.foldl _ (insertPair x acc) ↔ _
      rw [ih (insertPair x acc), mem_insertPair]
      simp only [List.mem_cons]
      tauto
  intro l
  rw [sortPairs, key l []]
  simp

/-! ### Sample documents used in concrete evaluations -/

/-- A source document with the two pending segments `Hello` and `World` in
the canonical layout. -/
def sampleDoc : List Char :=
  ("<source>Hello</source>\n          <target state=\"needs-translation\"/>\n"
    ++ "<source>World</source>\n          <target state=\"needs-translation\"/>").toList

/-- A translated document containing the completed pair `Hello → Hola`. -/
def sampleTrHello : List Char :=
  "<source>Hello</source>\n          <target>Hola</target>".toList

/-- A translated document completing both `Hello` and `World`. -/
def sampleTrBoth : List Char :=
  ("<source>Hello</source>\n          <target>Hola</target>\n"
    ++ "<source>World</source>\n          <target>Mundo</target>").toList

/-- A source document with a single pending segment of exactly 15 characters. -/
def sampleDoc15 : List Char :=
  "<source>AAAAABBBBBCCCCC</source>\n          <target state=\"needs-translation\"/>".toList

/-- A pending segment whose untranslated marker is separated from
`</source>` by a bare newline instead of the script's newline-plus-ten-spaces
layout.  `search_pattern` still matches it (`\s+`), but the literal "before"
string of `translate` does not occur in it. -/
def sampleDocBare : List Char :=
  "<source>Hi</source>\n<target state=\"needs-translation\"/>".toList

/-! ### Claim C4 -/

/-- **C4** (counterexample): on a document whose pending segment does not use
the exact 11-column layout, `translate` is a no-op (the literal "before"
string does not occur), and re-extracting the merged document still returns
the segment `Hi` — so the claim fails for that document/pair. -/
theorem c4_layout_counterexample :
    "Hi".toList ∈ searchFindAll (translate sampleDocBare
      [("Hi".toList, "Hola".toList)]) ∧
    translate sampleDocBare [("Hi".toList, "Hola".toList)] = sampleDocBare := by
  decide

/-- **C4** (amended): for canonically rendered documents (pending/completed
segments in the script's exact layout plus markup-free filler) and a
single-line, markup-free, nonempty translation, merging the pair `(S, v)` and
re-extracting never returns `S`. -/
theorem c4_merge_removes_pending (items : List XItem) (S v : List Char)
    (hwf : ∀ it ∈ items, WfItem it)
    (hSne : S ≠ []) (hSl : ∀ c ∈ S, c ≠ '<') (hSn : ∀ c ∈ S, c ≠ '\n')
    (hvne : v ≠ []) (hvl : ∀ c ∈ v, c ≠ '<') (hvn : ∀ c ∈ v, c ≠ '\n') :
    S ∉ searchFindAll (translate (render items) [(S, v)]) := by
  have hm : translate (render items) [(S, v)] =
      replaceAll (oldPat S) (newPat S v) (render items) := rfl
  rw [hm, replaceAll_render hSne hSl v items hwf]
  have hwf' : ∀ it ∈ items.map (substItem S v), WfItem it := by
    intro it hit
    rw [List.mem_map] at hit
    obtain ⟨it0, hit0, heq⟩ := hit
    subst heq
    have h0 := hwf it0 hit0
    cases it0 with
    | pend s =>
      by_cases hse : s = S
      · subst hse
        rw [show substItem s v (.pend s) = .done s v from by simp [substItem]]
        exact ⟨h0, hvne, hvl, hvn⟩
      · rw [show substItem S v (.pend s) = .pend s from by simp [substItem, hse]]
        exact h0
    | done s t => exact h0
    | txt u => exact h0
  rw [searchFindAll_render _ hwf']
  intro hmem
  rw [pendSources, List.mem_filterMap] at hmem
  obtain ⟨it, hit, heq⟩ := hmem
  rw [List.mem_map] at hit
  obtain ⟨it0, hit0, heq0⟩ := hit
  cases it0 with
  | pend s =>
    by_cases hse : s = S
    · subst hse
      rw [show substItem s v (.pend s) = .done s v from by simp [substItem]] at heq0
      subst heq0
      simp at heq
    · rw [show substItem S v (.pend s) = .pend s from by simp [substItem, hse]] at heq0
      subst heq0
      simp at heq
      exact hse heq
  | done s t =>
    rw [show substItem S v (.done s t) = .done s t from rfl] at heq0
    subst heq0
    simp at heq
  | txt u =>
    rw [show substItem S v (.txt u) = .txt u from rfl] at heq0
    subst heq0
    simp at heq

/-- Witness for `c4_merge_removes_pending`: a canonical document with the
single pending segment `Hello`, merged with `("Hello", "Hola")`. -/
theorem c4_merge_removes_pending_witness :
    "Hello".toList ∉ searchFindAll (translate (render [.pend "Hello".toList])
      [("Hello".toList, "Hola".toList)]) :=
  c4_merge_removes_pending [.pend "Hello".toList] "Hello".toList "Hola".toList
    (by decide) (by decide) (by decide) (by decide) (by decide) (by decide) (by decide)

/-! ### Claim C5: merging a list of pairs at the item level -/

theorem donePairs_cons_pend (s : List Char) (l : List XItem) :
    donePairs (.pend s :: l) = donePairs l := rfl

theorem donePairs_cons_done (s t : List Char) (l : List XItem) :
    donePairs (.done s t :: l) = (s, t) :: donePairs l := rfl

theorem donePairs_cons_txt (u : List Char) (l : List XItem) :
    donePairs (.txt u :: l) = donePairs l := rfl

theorem substItem_pend_eq (S v : List Char) : substItem S v (.pend S) = .done S v := by
  simp [substItem]

theorem substItem_pend_ne {s S : List Char} (h : s ≠ S) (v : List Char) :
    substItem S v (.pend s) = .pend s := by
  simp [substItem, h]

theorem substItem_done (S v s t : List Char) : substItem S v (.done s t) = .done s t := rfl

theorem substItem_txt (S v u : List Char) : substItem S v (.txt u) = .txt u := rfl

theorem wfItems_map_subst {items : List XItem} {S v : List Char}
    (hwf : ∀ it ∈ items, WfItem it)
    (hvne : v ≠ []) (hvl : ∀ c ∈ v, c ≠ '<') (hvn : ∀ c ∈ v, c ≠ '\n') :
    ∀ it ∈ items.map (substItem S v), WfItem it := by
  intro it hit
  rw [List.mem_map] at hit
  obtain ⟨it0, hit0, heq⟩ := hit
  subst heq
  have h0 := hwf it0 hit0
  cases it0 with
  | pend s =>
    by_cases hse : s = S
    · subst hse
      rw [substItem_pend_eq]
      exact ⟨h0, hvne, hvl, hvn⟩
    · rw [substItem_pend_ne hse]
      exact h0
  | done s t => exact h0
  | txt u => exact h0

theorem donePairs_map_subst {S v : List Char} {q : List Char × List Char} :
    ∀ {its : List XItem}, q ∈ donePairs (its.map (substItem S v)) ↔
      q ∈ donePairs its ∨ (q = (S, v) ∧ XItem.pend S ∈ its) := by
  intro its
  induction its with
  | nil => simp [donePairs]
  | cons it its' ih =>
    cases it with
    | pend s =>
      by_cases hse : s = S
      · subst hse
        rw [List.map_cons, substItem_pend_eq, donePairs_cons_done, donePairs_cons_pend]
        simp only [List.mem_cons, ih]
        constructor
        · rintro (h | h | ⟨h1, h2⟩)
          · exact Or.inr ⟨h, by simp⟩
          · exact Or.inl h
          · exact Or.inr ⟨h1, by simp⟩
        · rintro (h | ⟨h1, h2⟩)
          · exact Or.inr (Or.inl h)
          · exact Or.inl h1
      · rw [List.map_cons, substItem_pend_ne hse, donePairs_cons_pend,
          donePairs_cons_pend, ih]
        have hmm : (XItem.pend S ∈ XItem.pend s :: its') ↔ XItem.pend S ∈ its' := by
          simp [XItem.pend.injEq, Ne.symm hse]
        rw [hmm]
    | done s t =>
      rw [List.map_cons, substItem_done, donePairs_cons_done, donePairs_cons_done]
      simp only [List.mem_cons, ih]
      have hne : ¬ (XItem.pend S = XItem.done s t) := by simp
      tauto
    | txt u =>
      rw [List.map_cons, substItem_txt, donePairs_cons_txt, donePairs_cons_txt, ih]
      have hmm : (XItem.pend S ∈ XItem.txt u :: its') ↔ XItem.pend S ∈ its' := by simp
      rw [hmm]

theorem pend_mem_map_subst {w S v : List Char} {its : List XItem} :
    XItem.pend w ∈ its.map (substItem S v) ↔ (w ≠ S ∧ XItem.pend w ∈ its) := by
  rw [List.mem_map]
  constructor
  · rintro ⟨it0, hit0, heq⟩
    cases it0 with
    | pend s =>
      by_cases hse : s = S
      · subst hse
        rw [substItem_pend_eq] at heq
        exact absurd heq (by simp)
      · rw [substItem_pend_ne hse] at heq
        have hsw : s = w := by
          injection heq
        subst hsw
        exact ⟨hse, hit0⟩
    | done s t =>
      rw [substItem_done] at heq
      exact absurd heq (by simp)
    | txt u =>
      rw [substItem_txt] at heq
      exact absurd heq (by simp)
  · rintro ⟨hw, hmem⟩
    exact ⟨.pend w, hmem, substItem_pend_ne hw v⟩

/-- The item-level effect of `translate` over a whole pair list. -/
def mergeItems (items : List XItem) (pairs : List (List Char × List Char)) : List XItem :=
  pairs.foldl (fun its p => its.map (substItem p.1 p.2)) items

theorem wf_mergeItems : ∀ (pairs : List (List Char × List Char)) (items : List XItem),
    (∀ it ∈ items, WfItem it) →
    (∀ q ∈ pairs, q.2 ≠ [] ∧ (∀ c ∈ q.2, c ≠ '<') ∧ (∀ c ∈ q.2, c ≠ '\n')) →
    ∀ it ∈ mergeItems items pairs, WfItem it := by
  intro pairs
  induction pairs with
  | nil => intro items hwf _; exact hwf
  | cons x pairs' ih =>
    intro items hwf hp
    have hx := hp x (by simp)
    exact ih _ (wfItems_map_subst hwf hx.1 hx.2.1 hx.2.2)
      (fun q hq => hp q (by simp [hq]))

theorem translate_render : ∀ (pairs : List (List Char × List Char)) (items : List XItem),
    (∀ it ∈ items, WfItem it) →
    (∀ q ∈ pairs, q.1 ≠ [] ∧ (∀ c ∈ q.1, c ≠ '<') ∧ (∀ c ∈ q.1, c ≠ '\n') ∧
      q.2 ≠ [] ∧ (∀ c ∈ q.2, c ≠ '<') ∧ (∀ c ∈ q.2, c ≠ '\n')) →
    (pairs.map Prod.fst).Nodup →
    translate (render items) pairs = render (mergeItems items pairs) := by
  intro pairs
  induction pairs with
  | nil => intro items _ _ _; rfl
  | cons x pairs' ih =>
    intro items hwf hp hnodup
    have hx := hp x (by simp)
    rw [List.map_cons, List.nodup_cons] at hnodup
    unfold translate
    rw [pydict_self (by rw [List.map_cons, List.nodup_cons]; exact hnodup)]
    show List.foldl _ (replaceAll (oldPat x.1) (newPat x.1 x.2) (render items)) pairs' = _
    rw [replaceAll_render hx.1 hx.2.1 x.2 items hwf]
    have htail := ih (items.map (substItem x.1 x.2))
      (wfItems_map_subst hwf hx.2.2.2.1 hx.2.2.2.2.1 hx.2.2.2.2.2)
      (fun q hq => hp q (by simp [hq])) hnodup.2
    unfold translate at htail
    rw [pydict_self hnodup.2] at htail
    exact htail

theorem donePairs_mem_mergeItems : ∀ (pairs : List (List Char × List Char))
    {items : List XItem} {q : List Char × List Char},
    q ∈ donePairs items → q ∈ donePairs (mergeItems items pairs) := by
  intro pairs
  induction pairs with
  | nil => intro items q h; exact h
  | cons x pairs' ih =>
    intro items q h
    exact ih (donePairs_map_subst.mpr (Or.inl h))

theorem donePairs_mergeItems_sub : ∀ (pairs : List (List Char × List Char))
    {items : List XItem} {q : List Char × List Char},
    q ∈ donePairs (mergeItems items pairs) → q ∈ donePairs items ∨ q ∈ pairs := by
  intro pairs
  induction pairs with
  | nil => intro items q h; exact Or.inl h
  | cons x pairs' ih =>
    intro items q h
    rcases ih h with h1 | h1
    · rcases donePairs_map_subst.mp h1 with h2 | ⟨h2, -⟩
      · exact Or.inl h2
      · right
        rw [h2, Prod.mk.eta]
        exact List.mem_cons_self _ _
    · exact Or.inr (by simp [h1])

theorem mergeItems_done_key : ∀ (pairs : List (List Char × List Char))
    (items : List XItem) (p : List Char × List Char), p ∈ pairs →
    (pairs.map Prod.fst).Nodup →
    (∀ q ∈ pairs, q.1 ∉ (donePairs items).map Prod.fst) →
    (∀ q ∈ pairs, XItem.pend q.1 ∈ items) →
    (∀ q' ∈ donePairs (mergeItems items pairs), q'.1 = p.1 → q'.2 = p.2) ∧
    (∃ q' ∈ donePairs (mergeItems items pairs), q'.1 = p.1) := by
  intro pairs
  induction pairs with
  | nil => intro items p hp; simp at hp
  | cons x pairs' ih =>
    intro items p hp hnodup hfresh hpend
    rw [List.map_cons, List.nodup_cons] at hnodup
    have hmerge : mergeItems items (x :: pairs') =
        mergeItems (items.map (substItem x.1 x.2)) pairs' := rfl
    have hfresh1 : ∀ q ∈ pairs',
        q.1 ∉ (donePairs (items.map (substItem x.1 x.2))).map Prod.fst := by
      intro q hq hmem
      rw [List.mem_map] at hmem
      obtain ⟨q', hq', hkey⟩ := hmem
      rcases donePairs_map_subst.mp hq' with h2 | ⟨h2, -⟩
      · exact hfresh q (by simp [hq]) (hkey ▸ List.mem_map_of_mem Prod.fst h2)
      · have hx1 : x.1 = q.1 := by rw [h2] at hkey; exact hkey
        exact hnodup.1 (hx1 ▸ List.mem_map_of_mem Prod.fst hq)
    have hpend1 : ∀ q ∈ pairs', XItem.pend q.1 ∈ items.map (substItem x.1 x.2) := by
      intro q hq
      apply pend_mem_map_subst.mpr
      refine ⟨?_, hpend q (by simp [hq])⟩
      intro he
      exact hnodup.1 (he ▸ List.mem_map_of_mem Prod.fst hq)
    rcases List.mem_cons.mp hp with hpx | hpx
    · subst hpx
      constructor
      · intro q' hq' hkey
        rw [hmerge] at hq'
        rcases donePairs_mergeItems_sub pairs' hq' with h1 | h1
        · rcases donePairs_map_subst.mp h1 with h2 | ⟨h2, -⟩
          · exact absurd (hkey ▸ List.mem_map_of_mem Prod.fst h2) (hfresh p (by simp))
          · rw [h2]
        · exact absurd (hkey ▸ List.mem_map_of_mem Prod.fst h1) hnodup.1
      · refine ⟨(p.1, p.2), ?_, rfl⟩
        rw [hmerge]
        exact donePairs_mem_mergeItems pairs'
          (donePairs_map_subst.mpr (Or.inr ⟨rfl, hpend p (by simp)⟩))
    · have hrec := ih (items.map (substItem x.1 x.2)) p hpx hnodup.2 hfresh1 hpend1
      rw [hmerge]
      exact hrec

/-- **C5** (counterexample): merging a pair into a document that contains no
pending segment for it (here: the empty document) is a no-op, so collecting
the merged document does not recover the pair — the claim fails as stated
for arbitrary documents. -/
theorem c5_empty_doc_counterexample :
    dictGet (collectTranslations (some (translate [] [("a".toList, "b".toList)])))
      "a".toList = none := by
  decide

/-- **C5** (amended): for a canonically rendered document and pairs with
pairwise-distinct, nonempty, single-line, markup-free sources and nonempty,
single-line, markup-free targets, such that each source has a pending segment
in the document and no completed segment yet, collecting the completed
segments of the merged document recovers every pair, keyed by source text. -/
theorem c5_roundtrip (items : List XItem) (pairs : List (List Char × List Char))
    (hwf : ∀ it ∈ items, WfItem it)
    (hp : ∀ q ∈ pairs, q.1 ≠ [] ∧ (∀ c ∈ q.1, c ≠ '<') ∧ (∀ c ∈ q.1, c ≠ '\n') ∧
      q.2 ≠ [] ∧ (∀ c ∈ q.2, c ≠ '<') ∧ (∀ c ∈ q.2, c ≠ '\n'))
    (hnodup : (pairs.map Prod.fst).Nodup)
    (hpend : ∀ q ∈ pairs, XItem.pend q.1 ∈ items)
    (hfresh : ∀ q ∈ pairs, q.1 ∉ (donePairs items).map Prod.fst) :
    ∀ p ∈ pairs, dictGet (collectTranslations (some (translate (render items) pairs)))
      p.1 = some p.2 := by
  intro p hp0
  rw [translate_render pairs items hwf hp hnodup]
  have hwfM : ∀ it ∈ mergeItems items pairs, WfItem it :=
    wf_mergeItems pairs items hwf
      (fun q hq => ⟨(hp q hq).2.2.2.1, (hp q hq).2.2.2.2.1, (hp q hq).2.2.2.2.2⟩)
  show dictGet (pydict (sortPairs (doneFindAll (render (mergeItems items pairs)))))
    p.1 = some p.2
  rw [doneFindAll_render _ hwfM]
  obtain ⟨hall, hex⟩ := mergeItems_done_key pairs items p hp0 hnodup hfresh hpend
  apply dictGet_pydict_of_all
  · intro q hq hqk
    exact hall q (mem_sortPairs.mp hq) hqk
  · obtain ⟨q, hq, hqk⟩ := hex
    exact ⟨q, mem_sortPairs.mpr hq, hqk⟩

/-- Witness for `c5_roundtrip`: the spec scenario — pending `Hello` and
`World`, pairs `Hello → Hola` and `World → Mundo`; `Hola` is recovered under
the key `Hello` from the merged document. -/
theorem c5_roundtrip_witness :
    dictGet (collectTranslations (some (translate
        (render [.pend "Hello".toList, .pend "World".toList])
        [("Hello".toList, "Hola".toList), ("World".toList, "Mundo".toList)])))
      "Hello".toList = some "Hola".toList :=
  c5_roundtrip [.pend "Hello".toList, .pend "World".toList]
    [("Hello".toList, "Hola".toList), ("World".toList, "Mundo".toList)]
    (by decide) (by decide) (by decide) (by decide) (by decide)
    ("Hello".toList, "Hola".toList) (by decide)

/-! ### Claim C1 -/

/-- **C1** (code bug): with keep-known-translations enabled,
`get_untranslated_items` computes `not_translated_sources =
sources.difference(known_translations.keys())` but then assigns
`list(sorted(sources))` — the subtraction never reaches the result.  On a
document with pending `Hello`, `World` and a translated document in which
`Hello` is already completed, the code returns *both* segments (the claim
says the result is the candidate set minus the known keys, i.e. `[World]`);
the `AlreadyTranslated` half of the claim does hold: when the subtraction
empties a non-empty candidate set the operation errors out. -/
theorem c1_keep_known_not_subtracted :
    getUntranslatedItems sampleDoc [] true (some sampleTrHello) =
      .ok ["Hello".toList, "World".toList] ∧
    dictKeys (collectTranslations (some sampleTrHello)) = ["Hello".toList] ∧
    "Hello".toList ∈ ["Hello".toList, "World".toList] ∧
    getUntranslatedItems sampleDoc [] true (some sampleTrBoth) = .error () := by
  decide

/-! ### Claim C2 -/

/-- **C2** (counterexample): a non-empty document (`"hello world"`) with zero
pending matches makes the translate run fail with `EmptySource`
(`NameError('El fichero fuente está vacío.')`), contradicting the claim that
this failure occurs only when the document itself is empty. -/
theorem c2_zero_matches_counterexample :
    mainRun ⟨100, 0⟩ "hello world".toList [] false none none none (fun _ _ _ => []) =
      .error .emptySource ∧
    "hello world".toList ≠ [] := by
  decide

/-- **C2** (amended): provided extraction succeeded and the quota check (which
comes first) passes, the run fails with `EmptySource` exactly when the
candidate batch is empty — which happens both for an empty document and for a
non-empty document with zero matches. -/
theorem c2_empty_source_iff (hist : Hist) (doc : List Char) (skip : List (List Char))
    (keep : Bool) (trDoc : Option (List Char)) (sa ta : Option (List Char))
    (api : List Char → List Char → List Char → List Char) (items : List (List Char))
    (h : getUntranslatedItems doc skip keep trDoc = .ok items)
    (hq : ¬ hist.maxChars ≤ hist.sentChars + (joinNl items).length) :
    mainRun hist doc skip keep trDoc sa ta api = .error .emptySource ↔ items = [] := by
  unfold mainRun
  rw [h]
  simp only []
  rw [if_neg hq]
  by_cases he : (joinNl items).isEmpty
  · rw [if_pos he]
    constructor
    · intro _
      exact (joinNl_eq_nil_iff (getUntranslatedItems_ne_nil h)).mp
        (List.isEmpty_eq_true.mp he)
    · intro _; rfl
  · rw [if_neg he]
    constructor
    · intro hcontra; exact absurd hcontra (by simp)
    · intro hitems
      subst hitems
      exact absurd (by rfl) he

/-- Witness for `c2_empty_source_iff` at a concrete non-empty document with
zero matches. -/
theorem c2_empty_source_iff_witness :
    mainRun ⟨100, 0⟩ "hello world".toList [] false none none none (fun _ _ _ => []) =
      .error .emptySource :=
  (c2_empty_source_iff ⟨100, 0⟩ "hello world".toList [] false none none none
    (fun _ _ _ => []) [] (by decide) (by decide)).mpr rfl

/-! ### Claim C3 -/

/-- **C3**: the budget check of `main` reports `QuotaExceeded`
(`OverflowError`) exactly when `charLimit <= charsSent + additionalChars`
(with `additionalChars` the length of the newline-joined batch); the check
happens strictly before the external call — on failure the outcome is
independent of the external translation function — and nothing is persisted
(`history.save()` is only reached after the call). -/
theorem c3_quota_before_call (hist : Hist) (doc : List Char) (skip : List (List Char))
    (keep : Bool) (trDoc : Option (List Char)) (sa ta : Option (List Char))
    (api : List Char → List Char → List Char → List Char) (items : List (List Char))
    (h : getUntranslatedItems doc skip keep trDoc = .ok items) :
    (mainRun hist doc skip keep trDoc sa ta api = .error .quotaExceeded ↔
      hist.maxChars ≤ hist.sentChars + (joinNl items).length) ∧
    (hist.maxChars ≤ hist.sentChars + (joinNl items).length →
      (∀ api', mainRun hist doc skip keep trDoc sa ta api =
        mainRun hist doc skip keep trDoc sa ta api') ∧
      savedState (mainRun hist doc skip keep trDoc sa ta api) = none) := by
  constructor
  · by_cases hq : hist.maxChars ≤ hist.sentChars + (joinNl items).length
    · unfold mainRun; rw [h]; simp only []; rw [if_pos hq]; simp [hq]
    · unfold mainRun; rw [h]; simp only []; rw [if_neg hq]
      constructor
      · intro hcontra
        by_cases he : (joinNl items).isEmpty
        · rw [if_pos he] at hcontra; exact absurd hcontra (by simp)
        · rw [if_neg he] at hcontra; exact absurd hcontra (by simp)
      · intro hq2; exact absurd hq2 hq
  · intro hq
    constructor
    · intro api'
      unfold mainRun; rw [h]; simp only []; rw [if_pos hq, if_pos hq]
    · unfold mainRun; rw [h]; simp only []; rw [if_pos hq]; rfl

/-- Witness for `c3_quota_before_call`: the spec scenario `charLimit=100,
charsSent=90`, batch of 15 characters. -/
theorem c3_quota_before_call_witness :
    mainRun ⟨100, 90⟩ sampleDoc15 [] false none none none (fun _ _ _ => []) =
      .error .quotaExceeded ∧
    savedState (mainRun ⟨100, 90⟩ sampleDoc15 [] false none none none
      (fun _ _ _ => [])) = none := by
  have hc := c3_quota_before_call ⟨100, 90⟩ sampleDoc15 [] false none none none
    (fun _ _ _ => []) ["AAAAABBBBBCCCCC".toList] (by decide)
  exact ⟨hc.1.mpr (by decide), (hc.2 (by decide)).2⟩

/-! ### Claim C6 -/

/-- A translated document with the faulty substring `DISC.` both inside a
collected translation value and as free-standing text. -/
def sampleFixDoc : List Char :=
  "A DISC. B\n<source>s</source>\n          <target>xDISC.y</target>".toList

/-- The result of one fix pass over `sampleFixDoc` with the table
`{"DISC.": "DTO."}`: only the occurrence inside the collected value is
corrected. -/
def sampleFixedDoc : List Char :=
  "A DISC. B\n<source>s</source>\n          <target>xDTO.y</target>".toList

theorem dictInsert_mem_sub {acc : List (List Char × List Char)}
    {kv p : List Char × List Char} (h : p ∈ dictInsert acc kv) : p ∈ acc ∨ p = kv := by
  unfold dictInsert at h
  split at h
  · rw [List.mem_map] at h
    obtain ⟨q, hq, hpq⟩ := h
    by_cases hqx : q.1 = kv.1
    · rw [if_pos (by simp [hqx])] at hpq
      right
      rw [← hpq, hqx]
    · rw [if_neg (by simp [hqx])] at hpq
      exact Or.inl (hpq ▸ hq)
  · rcases List.mem_append.mp h with h1 | h1
    · exact Or.inl h1
    · right
      simpa using h1

theorem fixData_inner_mem : ∀ (fixes : List (List Char × List Char))
    (data : List (List Char × List Char)) (q2 : List Char) (p : List Char × List Char),
    p ∈ fixes.foldl
      (fun d f => if containsSub f.1 q2 then dictInsert d (q2, replaceAll f.1 f.2 q2) else d)
      data →
    p ∈ data ∨ ∃ f ∈ fixes, containsSub f.1 q2 = true ∧ p = (q2, replaceAll f.1 f.2 q2) := by
  intro fixes
  induction fixes with
  | nil => intro data q2 p h; exact Or.inl h
  | cons f fixes' ih =>
    intro data q2 p h
    simp only [List.foldl_cons] at h
    by_cases hc : containsSub f.1 q2
    · rw [if_pos hc] at h
      rcases ih _ _ _ h with h1 | ⟨f', hf', hc', hp⟩
      · rcases dictInsert_mem_sub h1 with h2 | h2
        · exact Or.inl h2
        · exact Or.inr ⟨f, by simp, hc, h2⟩
      · exact Or.inr ⟨f', by simp [hf'], hc', hp⟩
    · rw [if_neg hc] at h
      rcases ih _ _ _ h with h1 | ⟨f', hf', hc', hp⟩
      · exact Or.inl h1
      · exact Or.inr ⟨f', by simp [hf'], hc', hp⟩

theorem buildFixData_mem : ∀ (tr fixes : List (List Char × List Char))
    (p : List Char × List Char), p ∈ buildFixData tr fixes →
    ∃ q ∈ tr, ∃ f ∈ fixes, containsSub f.1 q.2 = true ∧
      p = (q.2, replaceAll f.1 f.2 q.2) := by
  have aux : ∀ (tr fixes acc : List (List Char × List Char)) (p : List Char × List Char),
      p ∈ tr.foldl
        (fun data q =>
          fixes.foldl
            (fun d f =>
              if containsSub f.1 q.2 then dictInsert d (q.2, replaceAll f.1 f.2 q.2) else d)
            data)
        acc →
      p ∈ acc ∨ ∃ q ∈ tr, ∃ f ∈ fixes, containsSub f.1 q.2 = true ∧
        p = (q.2, replaceAll f.1 f.2 q.2) := by
    intro tr
    induction tr with
    | nil => intro fixes acc p h; exact Or.inl h
    | cons q tr' ih =>
      intro fixes acc p h
      simp only [List.foldl_cons] at h
      rcases ih fixes _ p h with h1 | ⟨q', hq', hrest⟩
      · rcases fixData_inner_mem fixes acc q.2 p h1 with h2 | ⟨f, hf, hc, hp⟩
        · exact Or.inl h2
        · exact Or.inr ⟨q, by simp, f, hf, hc, hp⟩
      · exact Or.inr ⟨q', by simp [hq'], hrest⟩
  intro tr fixes p h
  rcases aux tr fixes [] p h with h1 | h1
  · simp at h1
  · exact h1

theorem fixData_inner_nochange {fixes : List (List Char × List Char)} {t : List Char}
    (h : ∀ f ∈ fixes, containsSub f.1 t = false) :
    ∀ (data : List (List Char × List Char)),
      fixes.foldl
        (fun d f => if containsSub f.1 t then dictInsert d (t, replaceAll f.1 f.2 t) else d)
        data = data := by
  induction fixes with
  | nil => intro data; rfl
  | cons f fixes' ih =>
    intro data
    simp only [List.foldl_cons]
    rw [if_neg (by simp [h f (by simp)])]
    exact ih (fun f' hf' => h f' (by simp [hf'])) data

theorem buildFixData_nil {tr fixes : List (List Char × List Char)}
    (h : ∀ q ∈ tr, ∀ f ∈ fixes, containsSub f.1 q.2 = false) :
    buildFixData tr fixes = [] := by
  have aux : ∀ (tr' : List (List Char × List Char)),
      (∀ q ∈ tr', ∀ f ∈ fixes, containsSub f.1 q.2 = false) →
      ∀ acc, tr'.foldl
        (fun data q =>
          fixes.foldl
            (fun d f =>
              if containsSub f.1 q.2 then dictInsert d (q.2, replaceAll f.1 f.2 q.2) else d)
            data)
        acc = acc := by
    intro tr'
    induction tr' with
    | nil => intro _ acc; rfl
    | cons q tr'' ih =>
      intro hq acc
      simp only [List.foldl_cons]
      rw [fixData_inner_nochange (hq q (by simp)) acc]
      exact ih (fun q' hq' => hq q' (by simp [hq'])) acc
  exact aux tr h []

/-- **C6** (counterexample): a fix run with table `{"DISC.": "DTO."}`
succeeds but leaves the free-standing occurrence of `DISC.` (outside any
collected translation value) untouched — the claim that all literal
occurrences across the whole document are replaced is false. -/
theorem c6_faulty_outside_values_counterexample :
    fixRun sampleFixDoc [("DISC.".toList, "DTO.".toList)] = .ok sampleFixedDoc ∧
    containsSub "DISC.".toList sampleFixedDoc = true := by
  decide

/-- **C6** (amended): `fix` replaces whole collected translation values — the
fix data maps each affected value to that value with a single (the last
applicable) fix applied — rather than every occurrence of the faulty string;
it fails with `NoChangeError` (`NotImplementedError` in the code) exactly
when the resulting document is byte-identical to the input; consequently a
second application whose faulty strings no longer occur in any collected
value raises `NoChangeError`. -/
theorem c6_fix_whole_values (doc : List Char) (fixes : List (List Char × List Char)) :
    (fixRun doc fixes = .error () ↔
      (buildFixData (collectTranslations (some doc)) fixes).foldl
        (fun txt p => replaceAll p.1 p.2 txt) doc = doc) ∧
    (∀ d', fixRun doc fixes = .ok d' →
      d' = (buildFixData (collectTranslations (some doc)) fixes).foldl
        (fun txt p => replaceAll p.1 p.2 txt) doc ∧ d' ≠ doc) ∧
    (∀ p ∈ buildFixData (collectTranslations (some doc)) fixes,
      ∃ q ∈ collectTranslations (some doc), ∃ f ∈ fixes,
        containsSub f.1 q.2 = true ∧ p = (q.2, replaceAll f.1 f.2 q.2)) ∧
    (∀ d', fixRun doc fixes = .ok d' →
      (∀ q ∈ collectTranslations (some d'), ∀ f ∈ fixes, containsSub f.1 q.2 = false) →
      fixRun d' fixes = .error ()) := by
  refine ⟨?_, ?_, ?_, ?_⟩
  · unfold fixRun
    by_cases he : (buildFixData (collectTranslations (some doc)) fixes).foldl
        (fun txt p => replaceAll p.1 p.2 txt) doc = doc
    · rw [if_pos he]
      simp [he]
    · rw [if_neg he]
      simp [he]
  · intro d' h
    unfold fixRun at h
    by_cases he : (buildFixData (collectTranslations (some doc)) fixes).foldl
        (fun txt p => replaceAll p.1 p.2 txt) doc = doc
    · rw [if_pos he] at h
      exact absurd h (by simp)
    · rw [if_neg he] at h
      simp only [Except.ok.injEq] at h
      exact ⟨h.symm, h ▸ he⟩
  · exact buildFixData_mem _ fixes
  · intro d' _ hnone
    unfold fixRun
    simp only []
    rw [buildFixData_nil hnone]
    rw [List.foldl_nil, if_pos rfl]

/-- Witness for `c6_fix_whole_values`: the spec scenario — applying the
`DISC. → DTO.` table a second time raises `NoChangeError`. -/
theorem c6_fix_whole_values_witness :
    fixRun sampleFixedDoc [("DISC.".toList, "DTO.".toList)] = .error () :=
  (c6_fix_whole_values sampleFixDoc [("DISC.".toList, "DTO.".toList)]).2.2.2
    sampleFixedDoc (by decide) (by decide)

/-! ### Claim C7 -/

/-- **C7**: `extractUntranslated(D, K)` never returns a segment whose source
is in `K`; its result is exactly the set of matched source texts (duplicates
collapsed) minus `K`, in ascending lexicographic order.  The skip filter is
applied in every mode, so the no-skip guarantee is also stated for
keep-known-translations mode. -/
theorem c7_extract_skip_sorted (doc : List Char) (K : List (List Char))
    (trDoc : Option (List Char)) :
    (∃ items, getUntranslatedItems doc K false trDoc = .ok items ∧
      List.Pairwise lexLe items ∧
      ∀ s, s ∈ items ↔ s ∈ searchFindAll doc ∧ s ∉ K) ∧
    (∀ (keep : Bool) (trDoc' : Option (List Char)) (items' : List (List Char)),
      getUntranslatedItems doc K keep trDoc' = .ok items' → ∀ s ∈ items', s ∉ K) := by
  constructor
  · have hok : getUntranslatedItems doc K false trDoc =
        .ok (sortLex (((searchFindAll doc).dedup).filter (fun s => !(K.contains s)))) := by
      unfold getUntranslatedItems
      rw [if_neg Bool.false_ne_true]
    exact ⟨_, hok, getUntranslatedItems_sorted hok, getUntranslatedItems_mem hok⟩
  · intro keep trDoc' items' h s hs
    exact ((getUntranslatedItems_mem h s).mp hs).2

/-- Witness for `c7_extract_skip_sorted`: with `K = [World]` the keep-mode
extraction returns `[Hello]`, and `World` cannot be a member. -/
theorem c7_extract_skip_sorted_witness :
    getUntranslatedItems sampleDoc ["World".toList] true none = .ok ["Hello".toList] ∧
    "World".toList ∉ ["Hello".toList] := by
  refine ⟨by decide, fun hmem => ?_⟩
  exact ((c7_extract_skip_sorted sampleDoc ["World".toList] none).2 true none
    ["Hello".toList] (by decide) "World".toList hmem) (by decide)

/-! ### Claim C8 -/

/-- **C8**: `DeeplHistory.init` resets `sent_chars` to 0 and `start_date` to
now exactly when now is strictly later than the stored window start plus one
calendar month (`relativedelta(months=1)`); otherwise both fields are taken
unchanged from the stored record. -/
theorem c8_window_reset (rec : DeeplRecord) (now : PyDateTime) :
    (dtLt (addMonth rec.date) now = true →
      historyInit rec now = ⟨rec.maxCharsPerMonth, 0, now⟩) ∧
    (dtLt (addMonth rec.date) now = false →
      historyInit rec now = ⟨rec.maxCharsPerMonth, rec.sentChars, rec.date⟩) := by
  constructor <;> intro h <;> simp [historyInit, h]

/-- Witness for `c8_window_reset`: a stored start of 2026-08-01 with "now"
2026-10-12 resets; a stored start of 2026-09-20 does not. -/
theorem c8_window_reset_witness :
    historyInit ⟨500000, 123, ⟨2026, 8, 1, 10, 0⟩⟩ ⟨2026, 10, 12, 0, 0⟩ =
      ⟨500000, 0, ⟨2026, 10, 12, 0, 0⟩⟩ ∧
    historyInit ⟨500000, 123, ⟨2026, 9, 20, 10, 0⟩⟩ ⟨2026, 10, 12, 0, 0⟩ =
      ⟨500000, 123, ⟨2026, 9, 20, 10, 0⟩⟩ :=
  ⟨(c8_window_reset _ _).1 (by decide), (c8_window_reset _ _).2 (by decide)⟩

/-! ### Claim C9 -/

/-- **C9**: the target language passed to the external call is derived from
the source-language variable: the run's outcome does not depend on the
target-language argument at all; with a truthy source-language argument both
languages equal it, and otherwise the call uses source `en`, target `es`. -/
theorem c9_target_language (hist : Hist) (doc : List Char) (skip : List (List Char))
    (keep : Bool) (trDoc : Option (List Char)) (sa ta : Option (List Char))
    (api : List Char → List Char → List Char → List Char) :
    (∀ ta', mainRun hist doc skip keep trDoc sa ta api =
      mainRun hist doc skip keep trDoc sa ta' api) ∧
    (∀ r, mainRun hist doc skip keep trDoc sa ta api = .ok r →
      (∀ l, sa = some l → l ≠ [] → r.srcLang = l ∧ r.tgtLang = l) ∧
      ((sa = none ∨ sa = some []) →
        r.srcLang = "en".toList ∧ r.tgtLang = "es".toList)) := by
  constructor
  · intro ta'; rfl
  · intro r h
    unfold mainRun at h
    cases hg : getUntranslatedItems doc skip keep trDoc with
    | error e => rw [hg] at h; exact absurd h (by simp)
    | ok items =>
      rw [hg] at h
      simp only [] at h
      split at h
      · exact absurd h (by simp)
      · split at h
        · exact absurd h (by simp)
        · simp only [Except.ok.injEq] at h
          subst h
          constructor
          · intro l hl hlne
            subst hl
            have hne : l.isEmpty = false := by
              cases l with
              | nil => exact absurd rfl hlne
              | cons a as => rfl
            constructor <;> simp [hne]
          · rintro (hl | hl) <;> subst hl <;> exact ⟨rfl, rfl⟩

/-- Witness for `c9_target_language`: a successful run with
`source_lang = "fr"` calls the API with source `fr` and target `fr`. -/
theorem c9_target_language_witness :
    ∃ r, mainRun ⟨100, 0⟩ sampleDoc [] false none (some "fr".toList) none
        (fun _ _ _ => "Hola\nMundo".toList) = .ok r ∧
      r.srcLang = "fr".toList ∧ r.tgtLang = "fr".toList := by
  match h : mainRun ⟨100, 0⟩ sampleDoc [] false none (some "fr".toList) none
      (fun _ _ _ => "Hola\nMundo".toList) with
  | .error e =>
    cases e <;> exact absurd h (by decide)
  | .ok r =>
    have hc := (c9_target_language ⟨100, 0⟩ sampleDoc [] false none
      (some "fr".toList) none (fun _ _ _ => "Hola\nMundo".toList)).2 r h
    exact ⟨r, rfl, (hc.1 "fr".toList rfl (by decide)).1, (hc.1 "fr".toList rfl (by decide)).2⟩

/-! ### Claim C10 -/

/-- **C10**: when the translated-document file does not exist,
`collect_translations` returns the empty mapping, and consequently
keep-known-translations mode behaves exactly like the plain mode: no
candidate is excluded and the `AlreadyTranslated` signal cannot fire. -/
theorem c10_missing_translated :
    collectTranslations none = [] ∧
    ∀ (doc : List Char) (skip : List (List Char)),
      getUntranslatedItems doc skip true none = getUntranslatedItems doc skip false none := by
  refine ⟨rfl, ?_⟩
  intro doc skip
  unfold getUntranslatedItems
  rw [if_pos rfl, if_neg Bool.false_ne_true]
  simp only []
  have hf : (((searchFindAll doc).dedup).filter (fun s => !(skip.contains s))).filter
      (fun s => !((dictKeys (collectTranslations none)).contains s)) =
      ((searchFindAll doc).dedup).filter (fun s => !(skip.contains s)) := by
    simp [collectTranslations, dictKeys, pydict, sortPairs, List.contains]
  rw [hf]
  cases hb : (((searchFindAll doc).dedup).filter (fun s => !(skip.contains s))).isEmpty <;>
    simp [hb]
